import Mathlib

/-!
Verification development for the query-string codec of `sarshay/react-utils`
(`useUrlQuery` / `paramsObject` in the hook source file).

The codec is shallowly embedded: every function below is translated from the
TypeScript source.  JavaScript runtime primitives that the source calls
(`String.prototype.trim`, `Number(...)`, `Number.isSafeInteger`, property
reads/writes, `URLSearchParams` iteration) are modelled explicitly; the model
boundaries are documented on the corresponding definitions.

Machine numbers: the codec only ever *produces* numbers that pass
`Number.isSafeInteger`, i.e. integer doubles of magnitude at most `2^53 - 1`.
The value tree therefore carries `Int` scalars, and the double produced by
`Number(trimmed)` is modelled exactly as a rounded binary64 value represented
as a pair `m * 2^p` of integers (round-to-nearest, ties-to-even, with the
subnormal cutoff at `2^-1074` and overflow to infinity at `2^1024`).
-/

namespace ReactUtils

/-! ## JavaScript string primitives -/

/-- The characters removed by `String.prototype.trim`: ECMAScript WhiteSpace
(tab, VT, FF, space, NBSP, BOM, the Unicode Zs spaces) and LineTerminators. -/
def jsWhitespace (c : Char) : Bool :=
  let n := c.toNat
  (n == 9) || (n == 10) || (n == 11) || (n == 12) || (n == 13) || (n == 32) ||
  (n == 0xA0) || (n == 0xFEFF) || (n == 0x1680) ||
  ((0x2000 ≤ n) && (n ≤ 0x200A)) ||
  (n == 0x2028) || (n == 0x2029) || (n == 0x202F) || (n == 0x205F) || (n == 0x3000)

/-- Model of `value.trim()`. -/
def jsTrim (s : String) : String :=
  String.mk (((s.data.dropWhile jsWhitespace).reverse.dropWhile jsWhitespace).reverse)

/-- Model of `value.length`: UTF-16 code units, astral-plane characters count twice. -/
def jsStringLength (s : String) : Nat :=
  s.data.foldl (fun acc c => acc + (if c.toNat ≥ 0x10000 then 2 else 1)) 0

/-- The `/^\d+$/` test used by the decoder for index segments. -/
def isDigits (s : String) : Bool :=
  !s.data.isEmpty && s.data.all Char.isDigit

/-- Numeric value of a digit character. -/
def digitVal (c : Char) : Nat := c.toNat - 48

/-- Value of an all-digit character list read in base 10; on digit-only
strings this agrees with `parseInt(s, 10)` wherever the latter is exact. -/
def digitsToNat (ds : List Char) : Nat :=
  ds.foldl (fun a c => a * 10 + digitVal c) 0

/-- Model of `parseInt(s, 10)` restricted to the all-digit strings the decoder feeds it. -/
def strToNat (s : String) : Nat := digitsToNat s.data

/-- Decimal digit characters of `n`, most significant first (fuel recursion so
that the definition reduces inside the kernel). -/
def natToDecimalAux : Nat → Nat → List Char
  | 0, _ => []
  | fuel + 1, n =>
    if n < 10 then [Char.ofNat (48 + n)]
    else natToDecimalAux fuel (n / 10) ++ [Char.ofNat (48 + n % 10)]

/-- Model of `String(n)` for a non-negative integer double below `10^21` (the range in
which JavaScript prints integers in plain decimal). -/
def natToDecimal (n : Nat) : String := String.mk (natToDecimalAux (n + 1) n)

/-- Model of `String(n)` for an integer double of magnitude below `10^21`. -/
def intToDecimal (n : Int) : String :=
  if n < 0 then "-" ++ natToDecimal n.natAbs else natToDecimal n.natAbs

/-! ## `Number(string)`: the ECMAScript StringNumericLiteral grammar

`jsNumberOfString` returns the exact rational value of a numeric literal, or
`none` when the string is not a finite numeric literal.  `Infinity` literals
are folded into `none`: the codec treats every non-finite `Number(trimmed)`
result identically to `NaN` (both end in "keep the string", because
`Number.isSafeInteger` is false on infinities and the keyword tests cannot
match a string that spells a numeric literal). -/

/-- An unreduced exact rational `n / d` (`d` is always positive by
construction); kept unreduced so every operation reduces in the kernel. -/
structure Frac where
  n : Int
  d : Nat
  deriving DecidableEq, Repr

def isHexDigitChar (c : Char) : Bool :=
  c.isDigit || (('a' ≤ c) && (c ≤ 'f')) || (('A' ≤ c) && (c ≤ 'F'))

def hexDigitVal (c : Char) : Nat :=
  if c.isDigit then digitVal c
  else if ('a' ≤ c) && (c ≤ 'f') then c.toNat - 87
  else c.toNat - 55

def isOctalDigitChar (c : Char) : Bool := ('0' ≤ c) && (c ≤ '7')

def isBinaryDigitChar (c : Char) : Bool := c = '0' ∨ c = '1'

/-- A non-decimal integer literal body (after `0x`/`0o`/`0b`). -/
def parseRadix (r : Nat) (pred : Char → Bool) (val : Char → Nat)
    (cs : List Char) : Option Frac :=
  if cs.isEmpty then none
  else if cs.all pred then some ⟨(cs.foldl (fun a c => a * r + val c) 0 : Nat), 1⟩
  else none

/-- Exponent tail after `e`/`E`: optional sign, then at least one digit. -/
def parseExpTail (cs : List Char) : Option Int :=
  match cs with
  | [] => none
  | '+' :: rest =>
    if !rest.isEmpty && rest.all Char.isDigit then some (digitsToNat rest : Nat) else none
  | '-' :: rest =>
    if !rest.isEmpty && rest.all Char.isDigit then some (-(digitsToNat rest : Nat) : Int) else none
  | _ =>
    if cs.all Char.isDigit then some (digitsToNat cs : Nat) else none

/-- Scale a mantissa by `10^e`. -/
def applyExp (f : Frac) (e : Int) : Frac :=
  if e ≥ 0 then ⟨f.n * (10 ^ e.toNat : Nat), f.d⟩ else ⟨f.n, f.d * 10 ^ (-e).toNat⟩

/-- An unsigned decimal literal: `digits [. digits] [exp]` or `. digits [exp]`,
consuming the whole input. -/
def parseDecCore (cs : List Char) : Option Frac :=
  let ip := cs.takeWhile Char.isDigit
  let r1 := cs.dropWhile Char.isDigit
  match r1 with
  | [] => if ip.isEmpty then none else some ⟨(digitsToNat ip : Nat), 1⟩
  | '.' :: r2 =>
    let fp := r2.takeWhile Char.isDigit
    let r3 := r2.dropWhile Char.isDigit
    if ip.isEmpty && fp.isEmpty then none
    else
      let base : Frac :=
        ⟨(digitsToNat ip * 10 ^ fp.length + digitsToNat fp : Nat), 10 ^ fp.length⟩
      match r3 with
      | [] => some base
      | c :: r4 => if c = 'e' ∨ c = 'E' then (parseExpTail r4).map (applyExp base) else none
  | c :: r4 =>
    if (c = 'e' ∨ c = 'E') && !ip.isEmpty then
      (parseExpTail r4).map (applyExp ⟨(digitsToNat ip : Nat), 1⟩)
    else none

/-- Model of `Number(s)` on an already-trimmed, non-empty string, as an exact rational;
`none` means NaN or an infinity (see the section comment). -/
def jsNumberOfString (s : String) : Option Frac :=
  match s.data with
  | [] => none
  | '+' :: rest =>
    if rest = "Infinity".data then none else parseDecCore rest
  | '-' :: rest =>
    if rest = "Infinity".data then none
    else (parseDecCore rest).map (fun f => ⟨-f.n, f.d⟩)
  | cs =>
    if cs = "Infinity".data then none
    else
      match cs with
      | '0' :: c :: rest =>
        if c = 'x' ∨ c = 'X' then parseRadix 16 isHexDigitChar hexDigitVal rest
        else if c = 'o' ∨ c = 'O' then parseRadix 8 isOctalDigitChar digitVal rest
        else if c = 'b' ∨ c = 'B' then parseRadix 2 isBinaryDigitChar digitVal rest
        else parseDecCore cs
      | _ => parseDecCore cs

/-! ## Binary64 rounding -/

/-- Number of binary digits of `n` (`0` for `0`), by fuel recursion. -/
def bitLenAux : Nat → Nat → Nat
  | 0, _ => 0
  | fuel + 1, n => if n = 0 then 0 else bitLenAux fuel (n / 2) + 1

def bitLen (n : Nat) : Nat := bitLenAux n n

/-- Does `2^e ≤ a / b` hold (for positive `a`, `b`)? -/
def pow2LeFrac (e : Int) (a b : Nat) : Bool :=
  if e ≥ 0 then 2 ^ e.toNat * b ≤ a else b ≤ a * 2 ^ (-e).toNat

/-- Round `num / den` to the nearest integer, ties to even. -/
def roundHalfEvenDiv (num den : Nat) : Nat :=
  let q := num / den
  let r := num % den
  if 2 * r < den then q
  else if 2 * r > den then q + 1
  else if q % 2 = 0 then q else q + 1

/-- Round an exact rational to the nearest binary64 value `m * 2^p`
(round-to-nearest-even, subnormal cutoff `2^-1074`); `none` is overflow to an
infinity. -/
def roundToDouble (f : Frac) : Option (Int × Int) :=
  if f.n = 0 then some (0, 0)
  else
    let a : Nat := f.n.natAbs
    let b : Nat := f.d
    let e0 : Int := (bitLen a : Int) - (bitLen b : Int)
    let e : Int := if pow2LeFrac e0 a b then e0 else e0 - 1
    let p : Int := max (e - 52) (-1074)
    let num : Nat := if p ≤ 0 then a * 2 ^ (-p).toNat else a
    let den : Nat := if p ≤ 0 then b else b * 2 ^ p.toNat
    let m : Nat := roundHalfEvenDiv num den
    -- `m * 2^p ≥ 2^1024` iff `bitLen m ≥ 1025 - p` (for `m ≠ 0`)
    let overflow : Bool := m ≠ 0 && decide ((bitLen m : Int) + p ≥ 1025)
    if overflow then none
    else some ((if f.n < 0 then -(m : Int) else (m : Int)), p)

/-- Model of `Number.isSafeInteger` on the double `m * 2^p`, returning its integer value
when it is a safe integer. -/
def dblToSafeInt? (m p : Int) : Option Int :=
  if m = 0 then some 0
  else if p ≥ 0 then
    let v := m * 2 ^ p.toNat
    if v.natAbs ≤ 2 ^ 53 - 1 then some v else none
  else
    let k := (-p).toNat
    if m % (2 ^ k : Int) = 0 then
      let v := m / 2 ^ k
      if v.natAbs ≤ 2 ^ 53 - 1 then some v else none
    else none

/-! ## The value tree

The decoder builds plain JavaScript objects and arrays.  `JSValue` is the
tagged variant of what the dynamically-typed source manipulates:

* `num`: a number; the inference gate `Number.isSafeInteger` means every
  number the codec produces is an integer double, carried as `Int`;
* `obj`: a plain object as its insertion-ordered own properties;
* `arr`: an array as its element slots (`consHole` is an absent slot, which
  reads as `undefined`) plus its non-index string-keyed own properties
  (JavaScript arrays accept those too, and the decoder can create them).

Prototype chains are not modelled: property reads that miss the own
properties yield `undef`.  Keys naming `Object.prototype` members behave
differently on the host (the read hits the inherited member); the round-trip
statement below therefore excludes such field names. -/

inductive JSErr where
  | typeError
  | rangeError
  deriving DecidableEq, Repr

mutual
inductive JSValue where
  | num (n : Int)
  | bool (b : Bool)
  | null
  | undef
  | str (s : String)
  | obj (fields : JSFields)
  | arr (elems : JSElems) (props : JSFields)
  deriving DecidableEq, Repr

inductive JSFields where
  | nil
  | cons (key : String) (val : JSValue) (rest : JSFields)
  deriving DecidableEq, Repr

inductive JSElems where
  | nil
  | consVal (v : JSValue) (rest : JSElems)
  | consHole (rest : JSElems)
  deriving DecidableEq, Repr
end

/-! ## The scalar inferencer: `convertValue` -/

/-- Translation of `convertValue` from `paramsObject`, clause by clause:
length guard, trim, empty-after-trim, the numeric branch gated by
`Number.isSafeInteger(Number(trimmed))`, the keyword tests, else the trimmed
string.  (`typeof value !== 'string'` cannot fire: `URLSearchParams` values
are strings.) -/
def convertValue (value : String) : JSValue :=
  if jsStringLength value > 1000 then .str value
  else
    let trimmed := jsTrim value
    if trimmed = "" then .str ""
    else
      match jsNumberOfString trimmed with
      | some f =>
        match roundToDouble f with
        | some (m, p) =>
          match dblToSafeInt? m p with
          | some v => .num v
          | none => .str trimmed
        | none => .str trimmed
      | none =>
        if trimmed = "true" then .bool true
        else if trimmed = "false" then .bool false
        else if trimmed = "null" then .null
        else if trimmed = "undefined" then .undef
        else .str trimmed

/-! ## Object and array primitive operations -/

/-- Own-property lookup on an object's field list. -/
def jsLookup : JSFields → String → Option JSValue
  | .nil, _ => none
  | .cons k v rest, key => if k = key then some v else jsLookup rest key

/-- Property assignment on a field list: replace in place, or append. -/
def assocSet : JSFields → String → JSValue → JSFields
  | .nil, key, v => .cons key v .nil
  | .cons k w rest, key, v =>
    if k = key then .cons key v rest else .cons k w (assocSet rest key v)

/-- Read an array slot (`none` for a hole or out-of-range index). -/
def elemsGet : JSElems → Nat → Option JSValue
  | .nil, _ => none
  | .consVal v _, 0 => some v
  | .consHole _, 0 => none
  | .consVal _ rest, n + 1 => elemsGet rest n
  | .consHole rest, n + 1 => elemsGet rest n

/-- Write an array slot at an index, extending with holes as JavaScript does. -/
def setElem : JSElems → Nat → JSValue → JSElems
  | .nil, 0, v => .consVal v .nil
  | .nil, n + 1, v => .consHole (setElem .nil n v)
  | .consVal _ rest, 0, v => .consVal v rest
  | .consHole rest, 0, v => .consVal v rest
  | .consVal w rest, n + 1, v => .consVal w (setElem rest n v)
  | .consHole rest, n + 1, v => .consHole (setElem rest n v)

def elemsLength : JSElems → Nat
  | .nil => 0
  | .consVal _ rest => elemsLength rest + 1
  | .consHole rest => elemsLength rest + 1

/-- Assignment to an array's `length`: truncate, or extend with holes. -/
def setLength : JSElems → Nat → JSElems
  | _, 0 => .nil
  | .nil, n + 1 => .consHole (setLength .nil n)
  | .consVal v rest, n + 1 => .consVal v (setLength rest n)
  | .consHole rest, n + 1 => .consHole (setLength rest n)

/-- A canonical array-index property key: the decimal form of some
`i < 2^32 - 1` with no leading zeros (JavaScript treats exactly these digit
strings as element indices; `"007"` is an ordinary property). -/
def canonicalIndex? (k : String) : Option Nat :=
  if isDigits k && (natToDecimal (strToNat k) = k) && strToNat k ≤ 2 ^ 32 - 2 then
    some (strToNat k)
  else none

/-- ToBoolean: the falsy values are `undefined`, `null`, `false`, `0`, `""`. -/
def jsTruthy : JSValue → Bool
  | .num n => n ≠ 0
  | .bool b => b
  | .null => false
  | .undef => false
  | .str s => s ≠ ""
  | .obj _ => true
  | .arr _ _ => true

def isContainer : JSValue → Bool
  | .obj _ => true
  | .arr _ _ => true
  | _ => false

/-- Property read `base[k]` as the decoder's walk performs it.  Model boundary: prototype
chains are elided, so a miss reads as `undefined` (on the host, keys naming
`Object.prototype` / `Array.prototype` members read the inherited member
instead); `"__proto__"` reads as `undefined` for the same reason.  String
indexing and `length` are modelled because the walk can reach string
primitives. -/
def jsRead (base : JSValue) (k : String) : JSValue
  := match base with
  | .obj fields => if k = "__proto__" then .undef else (jsLookup fields k).getD .undef
  | .arr elems props =>
    match canonicalIndex? k with
    | some i => (elemsGet elems i).getD .undef
    | none =>
      if k = "length" then .num (elemsLength elems)
      else if k = "__proto__" then .undef
      else (jsLookup props k).getD .undef
  | .str s =>
    match canonicalIndex? k with
    | some i => match s.data.drop i with
      | [] => JSValue.undef
      | c :: _ => .str (String.mk [c])
    | none => if k = "length" then .num (jsStringLength s) else .undef
  | _ => JSValue.undef

/-- The value assigned to an array's `length` property, when valid: the
argument must coerce to an integer in `[0, 2^32)` (otherwise a `RangeError`).
Model boundary: a (fresh, just-built) object or array argument is reported as
invalid; the host coerces through `toString`, which accepts some arrays. -/
def lengthNat? : JSValue → Option Nat
  | .num n => if 0 ≤ n ∧ n < 2 ^ 32 then some n.toNat else none
  | .bool b => some (if b then 1 else 0)
  | .null => some 0
  | .undef => none
  | .str s =>
    let t := jsTrim s
    if t = "" then some 0
    else
      match jsNumberOfString t with
      | some f =>
        if f.d ≠ 0 ∧ f.n % (f.d : Int) = 0 ∧ 0 ≤ f.n / (f.d : Int) ∧
            f.n / (f.d : Int) < 2 ^ 32 then
          some (f.n / (f.d : Int)).toNat
        else none
      | none => none
  | .obj _ => none
  | .arr _ _ => none

/-- Property write `base[k] = v` in strict-mode JavaScript (the source is an ES module, so
strict mode applies): property creation on a primitive throws `TypeError`;
an invalid array `length` assignment throws `RangeError`; assigning to
`"__proto__"` never creates an own property (the inherited setter either
rewires the prototype or ignores a primitive — own properties unchanged
either way). -/
def jsWrite (base : JSValue) (k : String) (v : JSValue) : Except JSErr JSValue
  := match base with
  | .obj fields =>
    if k = "__proto__" then .ok base else .ok (.obj (assocSet fields k v))
  | .arr elems props =>
    match canonicalIndex? k with
    | some i => .ok (.arr (setElem elems i v) props)
    | none =>
      if k = "length" then
        match lengthNat? v with
        | some n => .ok (.arr (setLength elems n) props)
        | none => .error .rangeError
      else if k = "__proto__" then .ok base
      else .ok (.arr elems (assocSet props k v))
  | _ => .error .typeError

/-! ## The path tokenizer: `parsePath` -/

/-- The character loop of `parsePath`: `[` and `]` both flush the pending
segment buffer (the two source branches are identical); any other character
extends the buffer; the final buffer is flushed if non-empty. -/
def parsePathGo : List Char → List Char → List String
  | current, [] => if current.isEmpty then [] else [String.mk current]
  | current, c :: cs =>
    if c = '[' ∨ c = ']' then
      (if current.isEmpty then [] else [String.mk current]) ++ parsePathGo [] cs
    else parsePathGo (current ++ [c]) cs

def parsePath (s : String) : List String := parsePathGo [] s.data

/-! ## The tree builder: `setPair` and `paramsObject`

The source walks the tree with a mutable `current` pointer:

```
for (let i = 0; i < keys.length - 1; i++) {
  const k = keys[i];
  const isNextKeyNumeric = /^\d+$/.test(keys[i + 1]);
  if (!current[k]) current[k] = isNextKeyNumeric ? [] : {};
  current = current[k];
}
```

`setPair` is the state-passing version of this walk, one key list per pair.
Since a thrown error aborts the whole `paramsObject` call (the partially
mutated object is discarded), a functional rebuild along the walked path is
observably equivalent to the in-place mutation; the special cases where
`current[k] = fresh` is not a plain store (array `length`, `"__proto__"`, a
primitive `current`) are modelled explicitly below, mirroring what the host
does on those two source lines. -/

/-- One `params.forEach` iteration: place the pair `key = raw` (already
tokenized into `keys`) into `current`.

* `[]`: an empty key list makes `keys[keys.length - 1]` read as `undefined`,
  which fails `/^\d+$/` and coerces to the property key `"undefined"`.
* `[finalKey]`: the final-segment store — index segments go through the
  `parseInt` / `0 ≤ idx < 10000` bound into an array (a non-array `current`
  is replaced by a fresh unreachable `[]`, losing the write), field segments
  are ordinary property stores.
* `k :: next :: rest`: the intermediate walk step.  A truthy `current[k]` is
  walked into (mutations on a primitive do not stick, so for a non-container
  the sub-walk only contributes its possible error); a falsy one is
  overwritten by `[]` or `{}` according to `isNextKeyNumeric`, except that on
  an array `current`, `current["length"] = fresh` assigns length `0` for a
  fresh `[]` (`ToNumber([])` is `0`, and the subsequent `current =
  current["length"]` reads back the number) and throws `RangeError` for a
  fresh object, and `current["__proto__"] = fresh` only rewires the
  prototype, so the built subtree never becomes reachable. -/
def setPair : JSValue → List String → String → Except JSErr JSValue
  | current, [], raw => jsWrite current "undefined" (convertValue raw)
  | current, [finalKey], raw =>
    if isDigits finalKey then
      let idx := strToNat finalKey
      if idx < 10000 then
        match current with
        | .arr elems props => .ok (.arr (setElem elems idx (convertValue raw)) props)
        | _ => .ok current
      else .ok current
    else jsWrite current finalKey (convertValue raw)
  | current, k :: next :: rest, raw =>
    let child := jsRead current k
    if jsTruthy child then
      if isContainer child then do
        let built ← setPair child (next :: rest) raw
        jsWrite current k built
      else do
        let _ ← setPair child (next :: rest) raw
        pure current
    else
      let fresh : JSValue := if isDigits next then .arr .nil .nil else .obj .nil
      match current with
      | .obj fields =>
        if k = "__proto__" then do
          let _ ← setPair fresh (next :: rest) raw
          pure current
        else do
          let built ← setPair fresh (next :: rest) raw
          pure (.obj (assocSet fields k built))
      | .arr elems props =>
        if k = "length" then
          match fresh with
          | .obj _ => .error .rangeError
          | _ => do
            let _ ← setPair (.num 0) (next :: rest) raw
            pure (.arr (setLength elems 0) props)
        else if k = "__proto__" then do
          let _ ← setPair fresh (next :: rest) raw
          pure current
        else
          match canonicalIndex? k with
          | some i => do
            let built ← setPair fresh (next :: rest) raw
            pure (.arr (setElem elems i built) props)
          | none => do
            let built ← setPair fresh (next :: rest) raw
            pure (.arr elems (assocSet props k built))
      | _ => .error .typeError

/-- The `params.forEach` loop over the ordered pairs. -/
def decodePairs : JSValue → List (String × String) → Except JSErr JSValue
  | current, [] => .ok current
  | current, (key, value) :: rest =>
    match setPair current (parsePath key) value with
    | .ok current' => decodePairs current' rest
    | .error e => .error e

/-- Translation of `paramsObject`, the decoder.  The test on
`params.toString().length` holds
exactly when the parameter list is empty, in which case `{}` is returned
early. -/
def paramsObject (pairs : List (String × String)) : Except JSErr JSValue :=
  if pairs.isEmpty then .ok (.obj .nil)
  else decodePairs (.obj .nil) pairs

/-! ## The encoder: `addToParams`

`setQuery` serializes a value tree by walking it recursively:

```
if (value === null || value === undefined) return;
if (Array.isArray(value)) { value.forEach((item, idx) => addToParams(item, prefix+"["+idx+"]")); }
else if (typeof value === 'object' && toString.call(value) === '[object Object]') { ... }
else { params.set(prefix, String(value)); }
```

`Array.prototype.forEach` visits index slots in ascending order and skips
holes (and never visits non-index string properties).  `params.set` appends a
new pair, replacing an earlier pair with the same key; the model emits the
ordered pair list (for trees whose field names contain no brackets, distinct
leaf paths give distinct keys, so no replacement occurs). -/

/-- Model of `String(value)` for the scalar leaves the encoder can reach.  Integer
doubles of magnitude below `10^21` print in plain decimal — and only safe
integers can satisfy the round-trip hypotheses below.  Containers and
null/undefined never reach the `String(...)` call (earlier branches return
first). -/
def jsValueToString : JSValue → String
  | .num n => intToDecimal n
  | .bool b => if b then "true" else "false"
  | .str s => s
  | .null => "null"
  | .undef => "undefined"
  | .obj _ => "[object Object]"
  | .arr _ _ => ""

mutual
/-- Translation of `addToParams(value, pfx)`: the ordered pairs contributed by `value`. -/
def addToParams : JSValue → String → List (String × String)
  | .null, _ => []
  | .undef, _ => []
  | .obj fields, pfx => encodeFields fields pfx
  | .arr elems _, pfx => encodeElems elems 0 pfx
  | v, pfx => [(pfx, jsValueToString v)]

/-- Object entries are visited in insertion order; at the root
(`pfx = ""`) the key is the bare field name. -/
def encodeFields : JSFields → String → List (String × String)
  | .nil, _ => []
  | .cons k v rest, pfx =>
    addToParams v (if pfx = "" then k else pfx ++ "[" ++ k ++ "]") ++ encodeFields rest pfx

/-- Array elements are visited at ascending indices, holes skipped, as
`value.forEach` does. -/
def encodeElems : JSElems → Nat → String → List (String × String)
  | .nil, _, _ => []
  | .consHole rest, i, pfx => encodeElems rest (i + 1) pfx
  | .consVal v rest, i, pfx =>
    addToParams v (pfx ++ "[" ++ natToDecimal i ++ "]") ++ encodeElems rest (i + 1) pfx
end

/-! ## The default merge

`useUrlQuery` computes `{ ...defaultValue, ...parsed }`: the spread keeps the
defaults' insertion order, overwrites a default field when `parsed` has the
same name, and appends fields only `parsed` has, in their own order. -/

/-- Model of the spread `\x7b ...defaults, ...parsed \x7d` at the top level. -/
def mergeDefaults : JSFields → JSFields → JSFields
  | acc, .nil => acc
  | acc, .cons k v rest => mergeDefaults (assocSet acc k v) rest

/-- The field names of an object, in order. -/
def fKeys : JSFields → List String
  | .nil => []
  | .cons k _ rest => k :: fKeys rest

/-- Concatenation of field lists. -/
def fAppend : JSFields → JSFields → JSFields
  | .nil, g => g
  | .cons k v rest, g => .cons k v (fAppend rest g)

/-- Does the object have a field of this name? -/
def hasKeyB : JSFields → String → Bool
  | .nil, _ => false
  | .cons k _ rest, key => k = key || hasKeyB rest key

/-! ## Round-trip apparatus

The statements below describe how `setPair` rebuilds a subtree along a
segment path.  `updateAt` is the declarative form of one `setPair` walk;
`insertableB` captures the precondition under which the walk performs a plain
insertion (every existing entry on the path is a container of the matching
kind, and the terminal slot is absent); `mkKey` rebuilds the bracket-notation
key string of a path the way the encoder builds its prefixes. -/

/-- The fresh container created when a walk meets a missing entry:
`isNextKeyNumeric ? [] : ...` with the object literal otherwise. -/
def freshFor (seg : String) : JSValue :=
  if isDigits seg then .arr .nil .nil else .obj .nil

/-- The value a walk continues into: the existing entry, or the fresh
container determined by the next segment. -/
def childFor : Option JSValue → List String → JSValue
  | some c, _ => c
  | none, [] => JSValue.undef
  | none, s :: _ => freshFor s

/-- Declarative path write: walk `path`, creating fresh containers at missing
entries, and store `v` at the end.  On a non-container the walk is a no-op
(those cases are excluded by `insertableB` anyway). -/
def updateAt : JSValue → List String → JSValue → JSValue
  | _, [], v => v
  | .obj fields, s :: rest, v =>
    .obj (assocSet fields s (updateAt (childFor (jsLookup fields s) rest) rest v))
  | .arr elems props, s :: rest, v =>
    .arr (setElem elems (strToNat s)
      (updateAt (childFor (elemsGet elems (strToNat s)) rest) rest v)) props
  | t, _ :: _, _ => t

/-- Walk `path` through existing entries only; `none` as soon as an entry is
missing (or a non-container is hit). -/
def slotAt : JSValue → List String → Option JSValue
  | t, [] => some t
  | .obj fields, s :: rest =>
    match jsLookup fields s with
    | some c => slotAt c rest
    | none => none
  | .arr elems _, s :: rest =>
    match elemsGet elems (strToNat s) with
    | some c => slotAt c rest
    | none => none
  | _, _ :: _ => none

/-- Precondition for a plain insertion at `path`: every segment matches the
kind of the container it addresses, existing intermediate entries are
themselves insertable, the walk never meets `"__proto__"` or a non-canonical
array index, and the terminal slot is absent (with the final index inside the
`idx < 10000` bound). -/
def insertableB : JSValue → List String → Bool
  | _, [] => false
  | .obj fields, [s] =>
    !isDigits s && s ≠ "__proto__" && (jsLookup fields s).isNone
  | .arr elems _, [s] =>
    isDigits s && strToNat s < 10000 && (elemsGet elems (strToNat s)).isNone
  | .obj fields, s :: rest =>
    !isDigits s && s ≠ "__proto__" &&
    (match jsLookup fields s with
     | none => true
     | some c => insertableB c rest)
  | .arr elems _, s :: rest =>
    (canonicalIndex? s).isSome &&
    (match elemsGet elems (strToNat s) with
     | none => true
     | some c => insertableB c rest)
  | _, _ :: _ => false

/-- Bracket-notation groups `[s1][s2]...`. -/
def mkKeyGroups : List String → String
  | [] => ""
  | s :: rest => "[" ++ s ++ "]" ++ mkKeyGroups rest

/-- The key string for a path: head segment bare, the rest bracketed —
exactly how the encoder builds prefixes from the root. -/
def mkKey : List String → String
  | [] => ""
  | k :: rest => k ++ mkKeyGroups rest

/-- A field name the decoder maps back to the same path segment, and for
which the model's elided prototype chain is irrelevant: non-empty,
bracket-free, not all digits, and not a member of `Object.prototype` (on the
host, a walk through a field named after an inherited member would read the
inherited function instead of creating a fresh container). -/
def goodKeyB (k : String) : Bool :=
  !(k = "") && !(k.data.contains '[') && !(k.data.contains ']') && !isDigits k &&
  !(["__proto__", "constructor", "hasOwnProperty", "isPrototypeOf",
     "propertyIsEnumerable", "toLocaleString", "toString", "valueOf",
     "__defineGetter__", "__defineSetter__", "__lookupGetter__",
     "__lookupSetter__"].contains k)

/-- A path segment that round-trips: a good field name, or a canonical array
index below the decoder's `10000` bound. -/
def goodSegB (s : String) : Bool :=
  goodKeyB s || ((canonicalIndex? s).isSome && strToNat s < 10000)

def goodPathB (p : List String) : Bool := p.all goodSegB

mutual
/-- A tree the codec round-trips, leaf for leaf: every leaf is a scalar that
survives `convertValue (String(v))` unchanged (so no `null`/`undefined`
leaves, no keyword-looking or number-looking or padded strings, only
safe-integer numbers); containers are non-empty, arrays have no holes, at
most `10000` elements and no string-keyed properties; field names are good
keys and unique. -/
def goodVal : JSValue → Bool
  | .num n => decide (convertValue (jsValueToString (.num n)) = .num n)
  | .bool b => decide (convertValue (jsValueToString (.bool b)) = .bool b)
  | .str s => decide (convertValue (jsValueToString (.str s)) = .str s)
  | .null => false
  | .undef => false
  | .obj fields =>
    (match fields with
     | .nil => false
     | .cons _ _ _ => true) && goodFieldsB fields
  | .arr elems props =>
    (match props with
     | .nil => true
     | .cons _ _ _ => false) &&
    (match elems with
     | .nil => false
     | _ => true) &&
    elemsLength elems ≤ 10000 && goodElemsB elems

/-- Good field lists: good unique keys, good values. -/
def goodFieldsB : JSFields → Bool
  | .nil => true
  | .cons k v rest => goodKeyB k && !hasKeyB rest k && goodVal v && goodFieldsB rest

/-- Good element lists: no holes, good values. -/
def goodElemsB : JSElems → Bool
  | .nil => true
  | .consHole _ => false
  | .consVal v rest => goodVal v && goodElemsB rest
end

/-- A good root object: like `goodVal` on an object, but the root may be
empty. -/
def goodRootB (fields : JSFields) : Bool := goodFieldsB fields

/-- A 2000-character string of `'a'`, for the length-bound claim. -/
def aString2000 : String := String.mk (List.replicate 2000 'a')

/-- The array decoded from the single pair `items[5]=value`: holes at indices
0 through 4, the string at index 5. -/
def itemsAt5 : JSValue :=
  .arr (.consHole (.consHole (.consHole (.consHole
    (.consHole (.consVal (.str "value") .nil)))))) .nil

/-- The defaults of the spec's merge example. -/
def pageDefaults : JSFields :=
  .cons "page" (.num 1) (.cons "limit" (.num 10) (.cons "sort" (.str "name") .nil))

/-- The decoded tree of the spec's merge example. -/
def pageParsed : JSFields := .cons "page" (.num 5) .nil

/-- Concatenation of element lists. -/
def eAppend : JSElems → JSElems → JSElems
  | .nil, b => b
  | .consVal v rest, b => .consVal v (eAppend rest b)
  | .consHole rest, b => .consHole (eAppend rest b)

/-- A plain path segment: non-empty, and free of the bracket characters. -/
def SegChars (s : String) : Prop :=
  s.data ≠ [] ∧ ∀ c ∈ s.data, ¬(c = '[' ∨ c = ']')

/-- A concrete good tree exercising every container kind, for the round-trip
witness. -/
def c5Tree : JSFields :=
  .cons "page" (.num 5)
    (.cons "sort" (.str "name")
      (.cons "filters" (.obj (.cons "status" (.str "active") .nil))
        (.cons "items" (.arr (.consVal (.str "x") (.consVal (.num 2) .nil)) .nil) .nil)))

set_option maxRecDepth 4000

/-! ## General lemmas about the primitive operations -/

/-- Structural induction for field lists (the mutual eliminator is
inconvenient for statements that never descend into the values). -/
theorem fieldsInd (motive : JSFields → Prop) (nil : motive .nil)
    (cons : ∀ k v rest, motive rest → motive (.cons k v rest)) :
    ∀ f, motive f
  | .nil => nil
  | .cons k v rest => cons k v rest (fieldsInd motive nil cons rest)

/-- Structural induction for element lists. -/
theorem elemsInd (motive : JSElems → Prop) (nil : motive .nil)
    (consVal : ∀ v rest, motive rest → motive (.consVal v rest))
    (consHole : ∀ rest, motive rest → motive (.consHole rest)) :
    ∀ e, motive e
  | .nil => nil
  | .consVal v rest => consVal v rest (elemsInd motive nil consVal consHole rest)
  | .consHole rest => consHole rest (elemsInd motive nil consVal consHole rest)

/-- Length of an all-`'a'` string, computed by induction (evaluating a fold
over 2000 characters inside the kernel is needlessly deep). -/
theorem jsStringLength_replicate_a (n : Nat) :
    jsStringLength (String.mk (List.replicate n 'a')) = n := by
  have aux : ∀ (m acc : Nat),
      List.foldl (fun acc c => acc + (if c.toNat ≥ 0x10000 then 2 else 1)) acc
        (List.replicate m 'a') = acc + m := by
    intro m
    induction m with
    | zero => intro acc; simp
    | succ k ih =>
      intro acc
      rw [List.replicate_succ, List.foldl_cons, ih]
      rw [if_neg (by decide)]
      omega
  simpa [jsStringLength] using aux n 0

/-- Looking up after an assignment: the assigned key reads the new value,
every other key is unaffected. -/
theorem jsLookup_assocSet (f : JSFields) (k key : String) (v : JSValue) :
    jsLookup (assocSet f k v) key = if k = key then some v else jsLookup f key := by
  induction f using fieldsInd with
  | nil => simp [assocSet, jsLookup]
  | cons k' w rest ih =>
    by_cases hk : k' = k
    · subst hk
      simp only [assocSet, if_pos rfl, jsLookup]
      by_cases hkey : k' = key <;> simp [hkey]
    · simp only [assocSet, if_neg hk, jsLookup]
      by_cases hkey : k' = key
      · subst hkey
        have : ¬k = k' := fun h => hk h.symm
        simp [this]
      · simp [hkey, ih]

/-- A key absent from the key list reads as `none`. -/
theorem jsLookup_eq_none_of_not_mem (f : JSFields) (k : String)
    (h : k ∉ fKeys f) : jsLookup f k = none := by
  induction f using fieldsInd with
  | nil => rfl
  | cons k' w rest ih =>
    simp only [fKeys, List.mem_cons] at h
    push_neg at h
    have hne : ¬k' = k := fun he => h.1 he.symm
    simp only [jsLookup, if_neg hne]
    exact ih h.2

/-- Lookup through the spread merge: `parsed` wins, `defaults` is the
fallback (for duplicate-free `parsed`). -/
theorem jsLookup_mergeDefaults : ∀ (p d : JSFields) (key : String),
    (fKeys p).Nodup →
    jsLookup (mergeDefaults d p) key =
      (match jsLookup p key with
       | some v => some v
       | none => jsLookup d key)
  | .nil, d, key, _ => by simp [mergeDefaults, jsLookup]
  | .cons k v rest, d, key, h => by
    have h' := List.nodup_cons.mp h
    show jsLookup (mergeDefaults (assocSet d k v) rest) key = _
    rw [jsLookup_mergeDefaults rest (assocSet d k v) key h'.2]
    by_cases hk : k = key
    · subst hk
      rw [jsLookup_eq_none_of_not_mem rest k h'.1]
      simp [jsLookup, jsLookup_assocSet]
    · simp only [jsLookup, if_neg hk]
      cases hrest : jsLookup rest key with
      | some w => rfl
      | none => simp [jsLookup_assocSet, hk]

/-! ## C1: the numeric gate of the scalar inferencer -/

/-- C1: evaluation of the code at the claim's sample points.  The safe
integer is converted, the 26-digit integer is kept as a string — but the
ordinary decimal `"29.99"` is also kept as a string, because the
`Number.isSafeInteger` gate rejects every non-integer, contradicting the
claim (and the code comment, which says rejection is for numbers too large to
handle safely).  `9007199254740992 = 2^53` is also kept, as the claim's bound
says. -/
theorem c1_numeric_gate_eval :
    convertValue "9007199254740991" = .num 9007199254740991 ∧
    convertValue "99999999999999999999999999" = .str "99999999999999999999999999" ∧
    convertValue "29.99" = .str "29.99" ∧
    convertValue "9007199254740992" = .str "9007199254740992" :=
  ⟨by rfl, by rfl, by rfl, by rfl⟩

/-! ## C2: the array index bound -/

/-- C2: evaluation of the code at the claim's two inputs.  `items[5]=value`
behaves as claimed: index 5 holds the string, indices 0 through 4 read as
`undefined`.  But `items[99999]=value` is *not* dropped entirely: the
navigation loop creates the array before the `idx < 10000` bound check runs,
so the root keeps an `items` field bound to `[]` — contradicting the claim,
the spec, and the repository's own test, which expects the `items` field to
be absent. -/
theorem c2_index_bound_eval :
    paramsObject [("items[5]", "value")] = .ok (.obj (.cons "items" itemsAt5 .nil)) ∧
    jsRead itemsAt5 "5" = .str "value" ∧
    jsRead itemsAt5 "0" = JSValue.undef ∧ jsRead itemsAt5 "1" = JSValue.undef ∧
    jsRead itemsAt5 "2" = JSValue.undef ∧ jsRead itemsAt5 "3" = JSValue.undef ∧
    jsRead itemsAt5 "4" = JSValue.undef ∧
    paramsObject [("items[99999]", "value")] =
      .ok (.obj (.cons "items" (.arr .nil .nil) .nil)) ∧
    jsLookup (.cons "items" (.arr .nil .nil) .nil) "items" = some (.arr .nil .nil) :=
  ⟨by rfl, by rfl, by rfl, by rfl, by rfl, by rfl, by rfl, by rfl, by rfl⟩

/-! ## C3: totality of the decoder -/

/-- C3: the decoder is *not* total.  Writing a non-numeric string to an
array's `length` property throws `RangeError` in any mode, and the module is
strict-mode code (an ES module), so writing a field segment through a path
bound to a truthy scalar throws `TypeError`. -/
theorem c3_decoder_throws :
    paramsObject [("a[0]", "1"), ("a[length]", "xyz")] = .error .rangeError ∧
    paramsObject [("a", "1"), ("a[b]", "2")] = .error .typeError :=
  ⟨by rfl, by rfl⟩

/-! ## C4: container kind conflicts -/

/-- C4 counterexample: after `a[b]=1` fixes `a` as an object, the pair
`a[0][c]=2` addresses it with an index segment — and is *not* dropped: the
digits become an ordinary field `"0"` of the existing object, modifying the
structure the claim says stays untouched. -/
theorem c4_counterexample :
    paramsObject [("a[b]", "1"), ("a[0][c]", "2")] =
      .ok (.obj (.cons "a" (.obj (.cons "b" (.num 1)
        (.cons "0" (.obj (.cons "c" (.num 2) .nil)) .nil))) .nil)) ∧
    JSFields.cons "b" (.num 1) (.cons "0" (.obj (.cons "c" (.num 2) .nil)) .nil) ≠
      .cons "b" (.num 1) .nil :=
  ⟨by rfl, by decide⟩

/-- C4 amended: only a conflicting *final* index segment is dropped — when
the final segment is an index segment and the container reached is not an
array, the write is discarded and the container is returned unchanged
(whatever the value and whether or not the index is below 10000). -/
theorem c4_amended (t : JSValue) (seg raw : String) (hd : isDigits seg = true)
    (hna : ∀ es ps, t ≠ .arr es ps) :
    setPair t [seg] raw = .ok t := by
  cases t with
  | arr es ps => exact absurd rfl (hna es ps)
  | num n => simp only [setPair, hd, if_true]; split <;> rfl
  | bool b => simp only [setPair, hd, if_true]; split <;> rfl
  | null => simp only [setPair, hd, if_true]; split <;> rfl
  | undef => simp only [setPair, hd, if_true]; split <;> rfl
  | str s => simp only [setPair, hd, if_true]; split <;> rfl
  | obj fields => simp only [setPair, hd, if_true]; split <;> rfl

/-- C4 amended, witness at a concrete input. -/
theorem c4_amended_witness :
    isDigits "0" = true ∧
    setPair (.obj (.cons "x" (.num 1) .nil)) ["0"] "v" =
      .ok (.obj (.cons "x" (.num 1) .nil)) :=
  ⟨by rfl, c4_amended (.obj (.cons "x" (.num 1) .nil)) "0" "v" (by rfl)
    (fun es ps h => JSValue.noConfusion h)⟩

/-! ## C6: the shallow default merge -/

/-- C6: the spread merge is a shallow top-level merge: a key reads from
`parsed` when present there and from `defaults` otherwise (so default fields
survive, same-named fields are overwritten wholesale, and `parsed`-only
fields are kept); and the spec's example merges to `page=5, limit=10,
sort="name"`. -/
theorem c6_shallow_merge (d p : JSFields) (key : String)
    (h : (fKeys p).Nodup) :
    (jsLookup (mergeDefaults d p) key =
      match jsLookup p key with
      | some v => some v
      | none => jsLookup d key) ∧
    paramsObject [("page", "5")] = .ok (.obj pageParsed) ∧
    mergeDefaults pageDefaults pageParsed =
      .cons "page" (.num 5) (.cons "limit" (.num 10) (.cons "sort" (.str "name") .nil)) :=
  ⟨jsLookup_mergeDefaults p d key h, by rfl, by rfl⟩

/-- C6 witness at the spec's inputs. -/
theorem c6_shallow_merge_witness :
    (fKeys pageParsed).Nodup ∧
    ((jsLookup (mergeDefaults pageDefaults pageParsed) "limit" =
      match jsLookup pageParsed "limit" with
      | some v => some v
      | none => jsLookup pageDefaults "limit") ∧
    paramsObject [("page", "5")] = .ok (.obj pageParsed) ∧
    mergeDefaults pageDefaults pageParsed =
      .cons "page" (.num 5) (.cons "limit" (.num 10) (.cons "sort" (.str "name") .nil))) :=
  ⟨by decide, c6_shallow_merge pageDefaults pageParsed "limit" (by decide)⟩

/-! ## C7: keyword scalars -/

/-- C7: exact keyword conversion on the trimmed value, no case folding, and
non-keywords stay strings. -/
theorem c7_keyword_scalars :
    convertValue "true" = .bool true ∧
    convertValue "false" = .bool false ∧
    convertValue "null" = .null ∧
    convertValue "undefined" = .undef ∧
    convertValue "hello" = .str "hello" ∧
    convertValue "TRUE" = .str "TRUE" ∧
    convertValue "True" = .str "True" :=
  ⟨by rfl, by rfl, by rfl, by rfl, by rfl, by rfl, by rfl⟩

/-! ## C8: the input length bound -/

/-- C8: any value longer than 1000 UTF-16 units is returned untouched — no
trimming, no conversion. -/
theorem c8_length_bound (value : String) (h : jsStringLength value > 1000) :
    convertValue value = .str value := by
  unfold convertValue
  rw [if_pos h]

/-- C8 witness: the 2000-character `'a'` string is returned untouched. -/
theorem c8_length_bound_witness :
    jsStringLength aString2000 > 1000 ∧ convertValue aString2000 = .str aString2000 :=
  have h : jsStringLength aString2000 > 1000 := by
    show jsStringLength (String.mk (List.replicate 2000 'a')) > 1000
    rw [jsStringLength_replicate_a]
    norm_num
  ⟨h, c8_length_bound aString2000 h⟩

/-! ## C9: keys with no path segments -/

/-- C9: a pair whose key tokenizes to zero segments is stored at the root
under the literal field name `"undefined"` (the read `keys[keys.length - 1]`
yields `undefined`, which coerces to that property key), and a later such
pair overwrites an earlier one. -/
theorem c9_empty_path (key₁ key₂ v₁ v₂ : String)
    (h₁ : parsePath key₁ = []) (h₂ : parsePath key₂ = []) :
    paramsObject [(key₁, v₁), (key₂, v₂)] =
      .ok (.obj (.cons "undefined" (convertValue v₂) .nil)) := by
  simp [paramsObject, decodePairs, h₁, h₂, setPair, jsWrite, assocSet]

/-- C9 witness: the empty key and the key `"[]"` both tokenize to no
segments; the later pair wins. -/
theorem c9_empty_path_witness :
    parsePath "" = [] ∧ parsePath "[]" = [] ∧
    paramsObject [("", "7"), ("[]", "yes")] =
      .ok (.obj (.cons "undefined" (.str "yes") .nil)) := by
  refine ⟨by rfl, by rfl, ?_⟩
  rw [c9_empty_path "" "[]" "7" "yes" (by rfl) (by rfl)]
  rfl

/-! ## C10: a single index segment at the root -/

/-- C10: a pair whose key tokenizes to a single index segment is dropped
entirely: the root is an object, never an array, so the final index write
replaces `current` by a fresh unreachable array — whatever the value, and
whether or not the index is below 10000. -/
theorem c10_single_index_dropped (fields : JSFields) (key value seg : String)
    (h₁ : parsePath key = [seg]) (h₂ : isDigits seg = true) :
    setPair (.obj fields) (parsePath key) value = .ok (.obj fields) ∧
    paramsObject [(key, value)] = .ok (.obj .nil) := by
  have base : ∀ fs : JSFields, setPair (.obj fs) [seg] value = .ok (.obj fs) := by
    intro fs
    simp only [setPair, h₂, if_true]
    split <;> rfl
  refine ⟨by rw [h₁]; exact base fields, ?_⟩
  simp [paramsObject, decodePairs, h₁, base .nil]

/-- C10 witness at the key `"0"`. -/
theorem c10_single_index_dropped_witness :
    parsePath "0" = ["0"] ∧ isDigits "0" = true ∧
    (setPair (.obj .nil) (parsePath "0") "x" = .ok (.obj .nil) ∧
     paramsObject [("0", "x")] = .ok (.obj .nil)) :=
  ⟨by rfl, by rfl, c10_single_index_dropped .nil "0" "x" "0" (by rfl) (by rfl)⟩

/-! ## C5: the round trip

The development below proves the amended round-trip statement: encoding a
good tree (see `goodVal`) and decoding the resulting pairs rebuilds the tree
exactly.  The proof walks the encoder output group by group, maintaining the
partially rebuilt tree through the declarative path write `updateAt`. -/

/-- Digit characters built from `48 + m`. -/
theorem digit_char_spec (m : Nat) (h : m < 10) :
    digitVal (Char.ofNat (48 + m)) = m ∧ (Char.ofNat (48 + m)).isDigit = true := by
  interval_cases m <;> exact ⟨by decide, by decide⟩

/-- Appending one digit character multiplies the value by ten. -/
theorem digitsToNat_append_singleton (a : List Char) (c : Char) :
    digitsToNat (a ++ [c]) = digitsToNat a * 10 + digitVal c := by
  simp [digitsToNat, List.foldl_append]

/-- Value, non-emptiness and digit-ness of the decimal printer. -/
theorem natToDecimalAux_spec : ∀ (fuel n : Nat), n < fuel →
    digitsToNat (natToDecimalAux fuel n) = n ∧
    natToDecimalAux fuel n ≠ [] ∧
    (natToDecimalAux fuel n).all Char.isDigit = true
  | 0, n, h => absurd h (Nat.not_lt_zero n)
  | fuel + 1, n, h => by
    by_cases h10 : n < 10
    · simp only [natToDecimalAux, if_pos h10]
      refine ⟨?_, by simp, ?_⟩
      · simpa [digitsToNat] using (digit_char_spec n h10).1
      · simpa [List.all_cons] using (digit_char_spec n h10).2
    · have hdiv : n / 10 < fuel := by omega
      have ih := natToDecimalAux_spec fuel (n / 10) hdiv
      have hmod := digit_char_spec (n % 10) (Nat.mod_lt n (by omega))
      simp only [natToDecimalAux, if_neg h10]
      refine ⟨?_, by simp, ?_⟩
      · rw [digitsToNat_append_singleton, ih.1, hmod.1]
        omega
      · simp [List.all_append, ih.2.2, hmod.2]

/-- Printing then parsing a number is the identity. -/
theorem strToNat_natToDecimal (n : Nat) : strToNat (natToDecimal n) = n :=
  (natToDecimalAux_spec (n + 1) n (Nat.lt_succ_self n)).1

/-- The decimal form of a number is an index segment. -/
theorem isDigits_natToDecimal (n : Nat) : isDigits (natToDecimal n) = true := by
  have h := natToDecimalAux_spec (n + 1) n (Nat.lt_succ_self n)
  simp [isDigits, natToDecimal, h.2.1, h.2.2]

/-- The decimal form of a small number is a canonical index. -/
theorem canonicalIndex?_natToDecimal (n : Nat) (h : n ≤ 2 ^ 32 - 2) :
    canonicalIndex? (natToDecimal n) = some n := by
  have h' : n ≤ 4294967294 := by omega
  simp [canonicalIndex?, isDigits_natToDecimal, strToNat_natToDecimal, h']

/-- Digit characters are not brackets. -/
theorem digit_not_bracket (c : Char) (h : c.isDigit = true) : ¬(c = '[' ∨ c = ']') := by
  rintro (rfl | rfl) <;> simp at h

/-- An index segment is not one of the special property names. -/
theorem isDigits_ne_special (s : String) (h : isDigits s = true) :
    s ≠ "length" ∧ s ≠ "__proto__" := by
  constructor <;> rintro rfl <;> exact absurd h (by decide)

/-- What a successful canonical-index test says. -/
theorem canonicalIndex?_eq_some (s : String) (i : Nat)
    (h : canonicalIndex? s = some i) :
    isDigits s = true ∧ i = strToNat s := by
  unfold canonicalIndex? at h
  by_cases hc : (isDigits s && (natToDecimal (strToNat s) = s : Bool) &&
      decide (strToNat s ≤ 2 ^ 32 - 2)) = true
  · rw [if_pos hc] at h
    simp only [Bool.and_eq_true] at hc
    exact ⟨hc.1.1, (Option.some.inj h).symm⟩
  · rw [if_neg hc] at h
    exact absurd h (by simp)

/-- Good segments are plain segments. -/
theorem segChars_of_goodSeg (s : String) (h : goodSegB s = true) : SegChars s := by
  unfold goodSegB at h
  rcases (Bool.or_eq_true _ _).mp h with hk | hc
  · unfold goodKeyB at hk
    simp only [Bool.and_eq_true] at hk
    obtain ⟨⟨⟨⟨hne, hl⟩, hr⟩, _⟩, _⟩ := hk
    have hne' : s ≠ "" := by
      intro he
      rw [he] at hne
      exact absurd hne (by decide)
    refine ⟨?_, ?_⟩
    · intro hd
      apply hne'
      cases s with
      | mk data =>
        cases hd
        rfl
    · intro c hcmem hbr
      have hmem : ∀ b : Char, s.data.contains b = false → c = b → False := by
        intro b hni he
        cases he
        have hct : s.data.contains c = true :=
          List.contains_iff_exists_mem_beq.mpr ⟨c, hcmem, by simp⟩
        rw [hct] at hni
        exact absurd hni (by simp)
      rcases hbr with rfl | rfl
      · exact hmem _ (by simpa using hl) rfl
      · exact hmem _ (by simpa using hr) rfl
  · simp only [Bool.and_eq_true] at hc
    obtain ⟨hcan, _⟩ := hc
    obtain ⟨i, hi⟩ := Option.isSome_iff_exists.mp hcan
    have hdig := (canonicalIndex?_eq_some s i hi).1
    unfold isDigits at hdig
    simp only [Bool.and_eq_true] at hdig
    refine ⟨by simpa using hdig.1, ?_⟩
    intro c hcmem
    exact digit_not_bracket c (by
      have := List.all_eq_true.mp hdig.2
      simpa using this c hcmem)

/-- Tokenizing past a run of plain characters accumulates them in the
buffer. -/
theorem parsePathGo_plain : ∀ (cs : List Char),
    (∀ c ∈ cs, ¬(c = '[' ∨ c = ']')) →
    ∀ (buf rest : List Char), parsePathGo buf (cs ++ rest) = parsePathGo (buf ++ cs) rest
  | [], _ => by intro buf rest; simp
  | c :: cs, h => by
    intro buf rest
    have hc : ¬(c = '[' ∨ c = ']') := h c (by simp)
    show parsePathGo buf (c :: (cs ++ rest)) = _
    rw [parsePathGo, if_neg hc]
    rw [parsePathGo_plain cs (fun x hx => h x (by simp [hx])) (buf ++ [c]) rest]
    simp

/-- A bracket flushes the buffer. -/
theorem parsePathGo_bracket (b : Char) (hb : b = '[' ∨ b = ']')
    (buf rest : List Char) :
    parsePathGo buf (b :: rest) =
      (if buf.isEmpty then [] else [String.mk buf]) ++ parsePathGo [] rest := by
  rw [parsePathGo, if_pos hb]

/-- Tokenizing the bracket groups of a good segment list yields the
segments. -/
theorem parsePathGo_groups : ∀ (q : List String), (∀ s ∈ q, SegChars s) →
    parsePathGo [] (mkKeyGroups q).data = q
  | [], _ => rfl
  | s :: q, h => by
    have hs := h s (by simp)
    have hdata : (mkKeyGroups (s :: q)).data =
        '[' :: (s.data ++ (']' :: (mkKeyGroups q).data)) := by
      show ("[" ++ s ++ "]" ++ mkKeyGroups q).data = _
      simp [String.data_append]
    rw [hdata, parsePathGo_bracket '[' (Or.inl rfl)]
    simp only [List.isEmpty_nil, if_pos rfl, List.nil_append]
    rw [parsePathGo_plain s.data hs.2 [] (']' :: (mkKeyGroups q).data)]
    rw [List.nil_append, parsePathGo_bracket ']' (Or.inr rfl)]
    rw [parsePathGo_groups q (fun x hx => h x (by simp [hx]))]
    have : s.data.isEmpty = false := by
      cases hd : s.data with
      | nil => exact absurd hd hs.1
      | cons a l => rfl
    rw [this]
    show String.mk s.data :: q = s :: q
    cases s
    rfl

/-- Tokenizing the key built from a good path yields the path back. -/
theorem parsePath_mkKey : ∀ (p : List String), p ≠ [] → (∀ s ∈ p, SegChars s) →
    parsePath (mkKey p) = p
  | [], hne, _ => absurd rfl hne
  | s :: q, _, h => by
    have hs := h s (by simp)
    show parsePathGo [] (s ++ mkKeyGroups q).data = s :: q
    rw [String.data_append]
    rw [parsePathGo_plain s.data hs.2 [] (mkKeyGroups q).data]
    rw [List.nil_append]
    cases q with
    | nil =>
      show parsePathGo s.data [] = [s]
      rw [parsePathGo]
      have : s.data.isEmpty = false := by
        cases hd : s.data with
        | nil => exact absurd hd hs.1
        | cons a l => rfl
      rw [this]
      show [String.mk s.data] = [s]
      cases s
      rfl
    | cons s2 q2 =>
      have hdata : (mkKeyGroups (s2 :: q2)).data =
          '[' :: (s2.data ++ (']' :: (mkKeyGroups q2).data)) := by
        show ("[" ++ s2 ++ "]" ++ mkKeyGroups q2).data = _
        simp [String.data_append]
      have hg := parsePathGo_groups (s2 :: q2) (fun x hx => h x (by simp [hx]))
      rw [hdata] at hg
      rw [parsePathGo_bracket '[' (Or.inl rfl)] at hg
      simp only [List.isEmpty_nil, if_true, List.nil_append] at hg
      rw [hdata, parsePathGo_bracket '[' (Or.inl rfl), hg]
      have : s.data.isEmpty = false := by
        cases hd : s.data with
        | nil => exact absurd hd hs.1
        | cons a l => rfl
      rw [this]
      show String.mk s.data :: s2 :: q2 = s :: s2 :: q2
      cases s
      rfl

/-- Group strings compose on the right. -/
theorem mkKeyGroups_append_single (q : List String) (k : String) :
    mkKeyGroups (q ++ [k]) = mkKeyGroups q ++ ("[" ++ k ++ "]") := by
  induction q with
  | nil => simp [mkKeyGroups]
  | cons s q ih => simp [mkKeyGroups, ih, String.append_assoc]

/-- Extending a non-empty path appends one bracket group to its key. -/
theorem mkKey_append_single (p : List String) (k : String) (h : p ≠ []) :
    mkKey (p ++ [k]) = mkKey p ++ "[" ++ k ++ "]" := by
  cases p with
  | nil => exact absurd rfl h
  | cons s q =>
    show mkKey (s :: (q ++ [k])) = _
    simp [mkKey, mkKeyGroups_append_single, String.append_assoc]

/-- The key of a one-segment path is the bare segment. -/
theorem mkKey_singleton (k : String) : mkKey [k] = k := by
  show k ++ mkKeyGroups [] = k
  show k ++ "" = k
  exact String.append_empty k

/-- The key of a good path is non-empty. -/
theorem mkKey_ne_empty (p : List String) (hp : p ≠ [])
    (h : ∀ s ∈ p, SegChars s) : mkKey p ≠ "" := by
  cases p with
  | nil => exact absurd rfl hp
  | cons s q =>
    intro he
    have hs := h s (by simp)
    have hd : (mkKey (s :: q)).data = [] := by rw [he]
    rw [show mkKey (s :: q) = s ++ mkKeyGroups q from rfl, String.data_append] at hd
    exact hs.1 (List.append_eq_nil.mp hd).1

/-- Reassigning the same key twice keeps only the last value. -/
theorem assocSet_assocSet : ∀ (f : JSFields) (k : String) (x y : JSValue),
    assocSet (assocSet f k x) k y = assocSet f k y
  | .nil, k, x, y => by simp [assocSet]
  | .cons k' w rest, k, x, y => by
    by_cases h : k' = k
    · subst h
      simp [assocSet]
    · simp only [assocSet, if_neg h]
      rw [assocSet_assocSet rest k x y]

/-- Assigning an absent key appends the binding. -/
theorem assocSet_eq_fAppend : ∀ (f : JSFields) (k : String) (v : JSValue),
    jsLookup f k = none → assocSet f k v = fAppend f (.cons k v .nil)
  | .nil, k, v, _ => rfl
  | .cons k' w rest, k, v, h => by
    by_cases hk : k' = k
    · rw [jsLookup, if_pos hk] at h
      exact absurd h (by simp)
    · rw [jsLookup, if_neg hk] at h
      simp only [assocSet, if_neg hk, fAppend]
      rw [assocSet_eq_fAppend rest k v h]

theorem fAppend_nil : ∀ f : JSFields, fAppend f .nil = f
  | .nil => rfl
  | .cons k v rest => by simp [fAppend, fAppend_nil rest]

theorem fAppend_assoc : ∀ a b c : JSFields,
    fAppend (fAppend a b) c = fAppend a (fAppend b c)
  | .nil, _, _ => rfl
  | .cons k v rest, b, c => by simp [fAppend, fAppend_assoc rest b c]

/-- An unreported key is absent. -/
theorem jsLookup_eq_none_of_hasKeyB_false : ∀ (f : JSFields) (k : String),
    hasKeyB f k = false → jsLookup f k = none
  | .nil, _, _ => rfl
  | .cons k' w rest, k, h => by
    simp only [hasKeyB, Bool.or_eq_false_iff] at h
    have hk : ¬k' = k := by
      intro he
      rw [he] at h
      simp at h
    rw [jsLookup, if_neg hk]
    exact jsLookup_eq_none_of_hasKeyB_false rest k h.2

theorem hasKeyB_fAppend : ∀ (a b : JSFields) (k : String),
    hasKeyB (fAppend a b) k = (hasKeyB a k || hasKeyB b k)
  | .nil, b, k => by simp [fAppend, hasKeyB]
  | .cons k' w rest, b, k => by
    simp [fAppend, hasKeyB, hasKeyB_fAppend rest b k, Bool.or_assoc]

/-- Reading back the slot just written. -/
theorem elemsGet_setElem_self : ∀ (e : JSElems) (i : Nat) (v : JSValue),
    elemsGet (setElem e i v) i = some v
  | .nil, 0, v => rfl
  | .nil, i + 1, v => by
    show elemsGet (.consHole (setElem .nil i v)) (i + 1) = some v
    show elemsGet (setElem .nil i v) i = some v
    exact elemsGet_setElem_self .nil i v
  | .consVal w rest, 0, v => rfl
  | .consHole rest, 0, v => rfl
  | .consVal w rest, i + 1, v => elemsGet_setElem_self rest i v
  | .consHole rest, i + 1, v => elemsGet_setElem_self rest i v

/-- Rewriting the slot just written keeps only the last value. -/
theorem setElem_setElem_self : ∀ (e : JSElems) (i : Nat) (x y : JSValue),
    setElem (setElem e i x) i y = setElem e i y
  | .nil, 0, x, y => rfl
  | .nil, i + 1, x, y => by
    show JSElems.consHole (setElem (setElem .nil i x) i y) = .consHole (setElem .nil i y)
    rw [setElem_setElem_self .nil i x y]
  | .consVal w rest, 0, x, y => rfl
  | .consHole rest, 0, x, y => rfl
  | .consVal w rest, i + 1, x, y => by
    show JSElems.consVal w (setElem (setElem rest i x) i y) = .consVal w (setElem rest i y)
    rw [setElem_setElem_self rest i x y]
  | .consHole rest, i + 1, x, y => by
    show JSElems.consHole (setElem (setElem rest i x) i y) = .consHole (setElem rest i y)
    rw [setElem_setElem_self rest i x y]

/-- Reading at the current length misses. -/
theorem elemsGet_length : ∀ e : JSElems, elemsGet e (elemsLength e) = none
  | .nil => rfl
  | .consVal _ rest => elemsGet_length rest
  | .consHole rest => elemsGet_length rest

/-- Writing at the current length appends. -/
theorem setElem_length_append : ∀ (e : JSElems) (v : JSValue),
    setElem e (elemsLength e) v = eAppend e (.consVal v .nil)
  | .nil, v => rfl
  | .consVal w rest, v => by
    show JSElems.consVal w (setElem rest (elemsLength rest) v) = _
    rw [setElem_length_append rest v]
    rfl
  | .consHole rest, v => by
    show JSElems.consHole (setElem rest (elemsLength rest) v) = _
    rw [setElem_length_append rest v]
    rfl

theorem elemsLength_eAppend : ∀ a b : JSElems,
    elemsLength (eAppend a b) = elemsLength a + elemsLength b
  | .nil, b => by simp [eAppend, elemsLength]
  | .consVal v rest, b => by
    simp [eAppend, elemsLength, elemsLength_eAppend rest b]
    omega
  | .consHole rest, b => by
    simp [eAppend, elemsLength, elemsLength_eAppend rest b]
    omega

theorem eAppend_nil : ∀ e : JSElems, eAppend e .nil = e
  | .nil => rfl
  | .consVal v rest => by simp [eAppend, eAppend_nil rest]
  | .consHole rest => by simp [eAppend, eAppend_nil rest]

theorem eAppend_assoc : ∀ a b c : JSElems,
    eAppend (eAppend a b) c = eAppend a (eAppend b c)
  | .nil, _, _ => rfl
  | .consVal v rest, b, c => by simp [eAppend, eAppend_assoc rest b c]
  | .consHole rest, b, c => by simp [eAppend, eAppend_assoc rest b c]

/-- Splitting a good path at its head. -/
theorem goodPathB_cons (s : String) (rest : List String) :
    goodPathB (s :: rest) = (goodSegB s && goodPathB rest) := by
  simp [goodPathB]

/-- What a good segment gives: a plain field key, or a canonical bounded
index. -/
theorem goodSeg_spec (s : String) (h : goodSegB s = true) :
    (isDigits s = false ∧ s ≠ "__proto__") ∨
    (canonicalIndex? s = some (strToNat s) ∧ isDigits s = true ∧
     strToNat s < 10000 ∧ s ≠ "length" ∧ s ≠ "__proto__") := by
  unfold goodSegB at h
  rcases (Bool.or_eq_true _ _).mp h with hk | hc
  · left
    unfold goodKeyB at hk
    simp only [Bool.and_eq_true] at hk
    constructor
    · have := hk.1.2
      simp only [Bool.not_eq_eq_eq_not, Bool.not_true] at this
      exact this
    · intro he
      rw [he] at hk
      exact absurd hk.2 (by decide)
  · right
    simp only [Bool.and_eq_true] at hc
    obtain ⟨hcan, hlt⟩ := hc
    obtain ⟨i, hi⟩ := Option.isSome_iff_exists.mp hcan
    obtain ⟨hdig, hii⟩ := canonicalIndex?_eq_some s i hi
    rw [hii] at hi
    obtain ⟨hl, hp⟩ := isDigits_ne_special s hdig
    exact ⟨hi, hdig, by simpa using hlt, hl, hp⟩

/-- Only containers are insertable. -/
theorem container_of_insertableB (c : JSValue) (q : List String)
    (h : insertableB c q = true) : isContainer c = true := by
  cases c <;> try rfl
  all_goals
    cases q with
    | nil => exact absurd h (by simp [insertableB])
    | cons a q' =>
      cases q' with
      | nil => exact absurd h (by simp [insertableB])
      | cons b q'' => exact absurd h (by simp [insertableB])

theorem jsTruthy_of_container (c : JSValue) (h : isContainer c = true) :
    jsTruthy c = true := by
  cases c <;> first | rfl | exact absurd h (by simp [isContainer])

/-- A fresh container is insertable along the path that provoked it. -/
theorem insertableB_freshFor (s : String) (rest : List String)
    (h : goodPathB (s :: rest) = true) :
    insertableB (freshFor s) (s :: rest) = true := by
  rw [goodPathB_cons] at h
  simp only [Bool.and_eq_true] at h
  obtain ⟨hs, _⟩ := h
  rcases goodSeg_spec s hs with ⟨hd, hp⟩ | ⟨hcan, hd, hlt, _, _⟩
  · rw [freshFor, if_neg (by simp [hd])]
    cases rest with
    | nil => simp [insertableB, hd, hp, jsLookup]
    | cons r rs => simp [insertableB, hd, hp, jsLookup]
  · rw [freshFor, if_pos hd]
    cases rest with
    | nil => simp [insertableB, hd, hlt, elemsGet]
    | cons r rs => simp [insertableB, hcan, elemsGet]

/-- The walk of one pair under the insertability precondition is exactly the
declarative path write. -/
theorem setPair_insert : ∀ (p : List String) (t : JSValue) (raw : String),
    insertableB t p = true → goodPathB p = true →
    setPair t p raw = .ok (updateAt t p (convertValue raw))
  | [], t, raw, h, _ => absurd h (by simp [insertableB])
  | [s], t, raw, h, hp => by
    cases t with
    | obj fields =>
      simp only [insertableB, Bool.and_eq_true] at h
      obtain ⟨⟨hd, hpr⟩, hn⟩ := h
      simp only [Bool.not_eq_eq_eq_not, Bool.not_true] at hd
      simp only [decide_eq_true_eq] at hpr
      simp [setPair, hd, jsWrite, hpr, updateAt]
    | arr elems props =>
      simp only [insertableB, Bool.and_eq_true] at h
      obtain ⟨⟨hd, hlt⟩, hn⟩ := h
      simp only [decide_eq_true_eq] at hlt
      simp [setPair, hd, hlt, updateAt]
    | num n => exact absurd h (by simp [insertableB])
    | bool b => exact absurd h (by simp [insertableB])
    | null => exact absurd h (by simp [insertableB])
    | undef => exact absurd h (by simp [insertableB])
    | str s' => exact absurd h (by simp [insertableB])
  | s :: s2 :: rest, t, raw, h, hp => by
    have htail : goodPathB (s2 :: rest) = true := by
      rw [goodPathB_cons] at hp
      simp only [Bool.and_eq_true] at hp
      exact hp.2
    cases t with
    | obj fields =>
      simp only [insertableB, Bool.and_eq_true] at h
      obtain ⟨⟨hd, hpr⟩, hm⟩ := h
      simp only [Bool.not_eq_eq_eq_not, Bool.not_true] at hd
      simp only [decide_eq_true_eq] at hpr
      cases hl : jsLookup fields s with
      | none =>
        rw [hl] at hm
        have hfresh : insertableB (freshFor s2) (s2 :: rest) = true :=
          insertableB_freshFor s2 rest htail
        have ih := setPair_insert (s2 :: rest) (freshFor s2) raw hfresh htail
        rw [freshFor] at ih
        simp [setPair, jsRead, hpr, hl, jsTruthy, ih, updateAt, childFor, freshFor]
      | some c =>
        rw [hl] at hm
        have hcont := container_of_insertableB c (s2 :: rest) hm
        have ih := setPair_insert (s2 :: rest) c raw hm htail
        simp [setPair, jsRead, hpr, hl, jsTruthy_of_container c hcont, hcont, ih,
          jsWrite, updateAt, childFor, Except.bind]
        rfl
    | arr elems props =>
      simp only [insertableB, Bool.and_eq_true] at h
      obtain ⟨hcan, hm⟩ := h
      obtain ⟨i, hi⟩ := Option.isSome_iff_exists.mp hcan
      obtain ⟨hdig, hii⟩ := canonicalIndex?_eq_some s i hi
      obtain ⟨hlen, hpro⟩ := isDigits_ne_special s hdig
      rw [hii] at hi
      cases hg : elemsGet elems (strToNat s) with
      | none =>
        rw [hg] at hm
        have hfresh : insertableB (freshFor s2) (s2 :: rest) = true :=
          insertableB_freshFor s2 rest htail
        have ih := setPair_insert (s2 :: rest) (freshFor s2) raw hfresh htail
        rw [freshFor] at ih
        simp [setPair, jsRead, hi, hg, jsTruthy, hlen, hpro, ih, updateAt,
          childFor, freshFor]
      | some c =>
        rw [hg] at hm
        have hcont := container_of_insertableB c (s2 :: rest) hm
        have ih := setPair_insert (s2 :: rest) c raw hm htail
        simp [setPair, jsRead, hi, hg, jsTruthy_of_container c hcont, hcont, ih,
          jsWrite, updateAt, childFor, Except.bind]
        rfl
    | num n => exact absurd h (by simp [insertableB])
    | bool b => exact absurd h (by simp [insertableB])
    | null => exact absurd h (by simp [insertableB])
    | undef => exact absurd h (by simp [insertableB])
    | str s' => exact absurd h (by simp [insertableB])

/-- An insertable path stays insertable under any extension: the walk ends at
an absent slot, below which everything is fresh. -/
theorem insertableB_extend : ∀ (p : List String) (t : JSValue) (k : String)
    (q : List String), insertableB t p = true → goodPathB p = true →
    insertableB t (p ++ k :: q) = true
  | [], t, k, q, h, _ => absurd h (by simp [insertableB])
  | [s], t, k, q, h, hp => by
    rw [goodPathB_cons] at hp
    simp only [Bool.and_eq_true] at hp
    cases t with
    | obj fields =>
      simp only [insertableB, Bool.and_eq_true] at h
      obtain ⟨⟨hd, hpr⟩, hn⟩ := h
      rw [Option.isNone_iff_eq_none] at hn
      show insertableB (.obj fields) (s :: k :: q) = true
      simp [insertableB, hd, hpr, hn]
    | arr elems props =>
      simp only [insertableB, Bool.and_eq_true] at h
      obtain ⟨⟨hd, hlt⟩, hn⟩ := h
      rw [Option.isNone_iff_eq_none] at hn
      rcases goodSeg_spec s hp.1 with ⟨hd', _⟩ | ⟨hcan, _, _, _, _⟩
      · rw [hd'] at hd
        exact absurd hd (by simp)
      · show insertableB (.arr elems props) (s :: k :: q) = true
        simp [insertableB, hcan, hn]
    | num n => exact absurd h (by simp [insertableB])
    | bool b => exact absurd h (by simp [insertableB])
    | null => exact absurd h (by simp [insertableB])
    | undef => exact absurd h (by simp [insertableB])
    | str s' => exact absurd h (by simp [insertableB])
  | s :: s2 :: rest, t, k, q, h, hp => by
    have htail : goodPathB (s2 :: rest) = true := by
      rw [goodPathB_cons] at hp
      simp only [Bool.and_eq_true] at hp
      exact hp.2
    cases t with
    | obj fields =>
      simp only [insertableB, Bool.and_eq_true] at h
      obtain ⟨⟨hd, hpr⟩, hm⟩ := h
      cases hl : jsLookup fields s with
      | none =>
        show insertableB (.obj fields) (s :: (s2 :: rest ++ k :: q)) = true
        simp [insertableB, hd, hpr, hl]
      | some c =>
        rw [hl] at hm
        have ih := insertableB_extend (s2 :: rest) c k q hm htail
        rw [List.cons_append] at ih
        show insertableB (.obj fields) (s :: (s2 :: rest ++ k :: q)) = true
        simp [insertableB, hd, hpr, hl, ih]
    | arr elems props =>
      simp only [insertableB, Bool.and_eq_true] at h
      obtain ⟨hcan, hm⟩ := h
      cases hg : elemsGet elems (strToNat s) with
      | none =>
        show insertableB (.arr elems props) (s :: (s2 :: rest ++ k :: q)) = true
        simp [insertableB, hcan, hg]
      | some c =>
        rw [hg] at hm
        have ih := insertableB_extend (s2 :: rest) c k q hm htail
        rw [List.cons_append] at ih
        show insertableB (.arr elems props) (s :: (s2 :: rest ++ k :: q)) = true
        simp [insertableB, hcan, hg, ih]
    | num n => exact absurd h (by simp [insertableB])
    | bool b => exact absurd h (by simp [insertableB])
    | null => exact absurd h (by simp [insertableB])
    | undef => exact absurd h (by simp [insertableB])
    | str s' => exact absurd h (by simp [insertableB])

/-- Writing an insertable container at an insertable path keeps the extended
path insertable. -/
theorem insertableB_updateAt : ∀ (p : List String) (t : JSValue),
    insertableB t p = true → goodPathB p = true →
    ∀ (c : JSValue) (q : List String), insertableB c q = true →
    insertableB (updateAt t p c) (p ++ q) = true
  | [], t, h, _, _, _, _ => absurd h (by simp [insertableB])
  | [s], t, h, hp, c, q, hq => by
    rw [goodPathB_cons] at hp
    simp only [Bool.and_eq_true] at hp
    cases q with
    | nil => exact absurd hq (by simp [insertableB])
    | cons q1 q' =>
      cases t with
      | obj fields =>
        simp only [insertableB, Bool.and_eq_true] at h
        obtain ⟨⟨hd, hpr⟩, _⟩ := h
        show insertableB (.obj (assocSet fields s (updateAt _ [] c))) (s :: q1 :: q') = true
        simp [insertableB, hd, hpr, updateAt, jsLookup_assocSet, hq]
      | arr elems props =>
        simp only [insertableB, Bool.and_eq_true] at h
        obtain ⟨⟨hd, hlt⟩, _⟩ := h
        rcases goodSeg_spec s hp.1 with ⟨hd', _⟩ | ⟨hcan, _, _, _, _⟩
        · rw [hd'] at hd
          exact absurd hd (by simp)
        · show insertableB (.arr (setElem elems (strToNat s) (updateAt _ [] c)) props)
            (s :: q1 :: q') = true
          simp [insertableB, hcan, updateAt, elemsGet_setElem_self, hq]
      | num n => exact absurd h (by simp [insertableB])
      | bool b => exact absurd h (by simp [insertableB])
      | null => exact absurd h (by simp [insertableB])
      | undef => exact absurd h (by simp [insertableB])
      | str s' => exact absurd h (by simp [insertableB])
  | s :: s2 :: rest, t, h, hp, c, q, hq => by
    have htail : goodPathB (s2 :: rest) = true := by
      rw [goodPathB_cons] at hp
      simp only [Bool.and_eq_true] at hp
      exact hp.2
    cases t with
    | obj fields =>
      simp only [insertableB, Bool.and_eq_true] at h
      obtain ⟨⟨hd, hpr⟩, hm⟩ := h
      cases hl : jsLookup fields s with
      | none =>
        have hfresh := insertableB_freshFor s2 rest htail
        have ih := insertableB_updateAt (s2 :: rest) (freshFor s2) hfresh htail c q hq
        rw [List.cons_append] at ih
        show insertableB (.obj (assocSet fields s
          (updateAt (childFor (jsLookup fields s) (s2 :: rest)) (s2 :: rest) c)))
          (s :: (s2 :: rest ++ q)) = true
        rw [hl]
        simp [insertableB, hd, hpr, jsLookup_assocSet, childFor, ih]
      | some c' =>
        rw [hl] at hm
        have ih := insertableB_updateAt (s2 :: rest) c' hm htail c q hq
        rw [List.cons_append] at ih
        show insertableB (.obj (assocSet fields s
          (updateAt (childFor (jsLookup fields s) (s2 :: rest)) (s2 :: rest) c)))
          (s :: (s2 :: rest ++ q)) = true
        rw [hl]
        simp [insertableB, hd, hpr, jsLookup_assocSet, childFor, ih]
    | arr elems props =>
      simp only [insertableB, Bool.and_eq_true] at h
      obtain ⟨hcan, hm⟩ := h
      cases hg : elemsGet elems (strToNat s) with
      | none =>
        have hfresh := insertableB_freshFor s2 rest htail
        have ih := insertableB_updateAt (s2 :: rest) (freshFor s2) hfresh htail c q hq
        rw [List.cons_append] at ih
        show insertableB (.arr (setElem elems (strToNat s)
          (updateAt (childFor (elemsGet elems (strToNat s)) (s2 :: rest)) (s2 :: rest) c))
          props) (s :: (s2 :: rest ++ q)) = true
        rw [hg]
        simp [insertableB, hcan, elemsGet_setElem_self, childFor, ih]
      | some c' =>
        rw [hg] at hm
        have ih := insertableB_updateAt (s2 :: rest) c' hm htail c q hq
        rw [List.cons_append] at ih
        show insertableB (.arr (setElem elems (strToNat s)
          (updateAt (childFor (elemsGet elems (strToNat s)) (s2 :: rest)) (s2 :: rest) c))
          props) (s :: (s2 :: rest ++ q)) = true
        rw [hg]
        simp [insertableB, hcan, elemsGet_setElem_self, childFor, ih]
    | num n => exact absurd h (by simp [insertableB])
    | bool b => exact absurd h (by simp [insertableB])
    | null => exact absurd h (by simp [insertableB])
    | undef => exact absurd h (by simp [insertableB])
    | str s' => exact absurd h (by simp [insertableB])

/-- Path writes compose: writing below a freshly written container is the
same as writing inside it first. -/
theorem updateAt_updateAt : ∀ (p : List String) (t : JSValue),
    insertableB t p = true → goodPathB p = true →
    ∀ (c : JSValue) (q : List String) (v : JSValue),
    updateAt (updateAt t p c) (p ++ q) v = updateAt t p (updateAt c q v)
  | [], t, h, _, _, _, _ => absurd h (by simp [insertableB])
  | [s], t, h, hp, c, q, v => by
    rw [goodPathB_cons] at hp
    simp only [Bool.and_eq_true] at hp
    cases t with
    | obj fields =>
      cases q with
      | nil =>
        simp [updateAt, assocSet_assocSet]
      | cons q1 q' =>
        simp [updateAt, jsLookup_assocSet, childFor, assocSet_assocSet]
    | arr elems props =>
      cases q with
      | nil =>
        simp [updateAt, setElem_setElem_self]
      | cons q1 q' =>
        simp [updateAt, elemsGet_setElem_self, childFor, setElem_setElem_self]
    | num n => exact absurd h (by simp [insertableB])
    | bool b => exact absurd h (by simp [insertableB])
    | null => exact absurd h (by simp [insertableB])
    | undef => exact absurd h (by simp [insertableB])
    | str s' => exact absurd h (by simp [insertableB])
  | s :: s2 :: rest, t, h, hp, c, q, v => by
    have htail : goodPathB (s2 :: rest) = true := by
      rw [goodPathB_cons] at hp
      simp only [Bool.and_eq_true] at hp
      exact hp.2
    cases t with
    | obj fields =>
      simp only [insertableB, Bool.and_eq_true] at h
      obtain ⟨⟨hd, hpr⟩, hm⟩ := h
      cases hl : jsLookup fields s with
      | none =>
        have hfresh := insertableB_freshFor s2 rest htail
        have ih := updateAt_updateAt (s2 :: rest) (freshFor s2) hfresh htail c q v
        rw [List.cons_append] at ih
        show updateAt (.obj (assocSet fields s
            (updateAt (childFor (jsLookup fields s) (s2 :: rest)) (s2 :: rest) c)))
            (s :: (s2 :: rest ++ q)) v = _
        rw [hl]
        simp [updateAt, jsLookup_assocSet, childFor, assocSet_assocSet, ih, hl]
      | some c' =>
        rw [hl] at hm
        have ih := updateAt_updateAt (s2 :: rest) c' hm htail c q v
        rw [List.cons_append] at ih
        show updateAt (.obj (assocSet fields s
            (updateAt (childFor (jsLookup fields s) (s2 :: rest)) (s2 :: rest) c)))
            (s :: (s2 :: rest ++ q)) v = _
        rw [hl]
        simp [updateAt, jsLookup_assocSet, childFor, assocSet_assocSet, ih, hl]
    | arr elems props =>
      simp only [insertableB, Bool.and_eq_true] at h
      obtain ⟨hcan, hm⟩ := h
      cases hg : elemsGet elems (strToNat s) with
      | none =>
        have hfresh := insertableB_freshFor s2 rest htail
        have ih := updateAt_updateAt (s2 :: rest) (freshFor s2) hfresh htail c q v
        rw [List.cons_append] at ih
        show updateAt (.arr (setElem elems (strToNat s)
            (updateAt (childFor (elemsGet elems (strToNat s)) (s2 :: rest)) (s2 :: rest) c))
            props) (s :: (s2 :: rest ++ q)) v = _
        rw [hg]
        simp [updateAt, elemsGet_setElem_self, childFor, setElem_setElem_self, ih, hg]
      | some c' =>
        rw [hg] at hm
        have ih := updateAt_updateAt (s2 :: rest) c' hm htail c q v
        rw [List.cons_append] at ih
        show updateAt (.arr (setElem elems (strToNat s)
            (updateAt (childFor (elemsGet elems (strToNat s)) (s2 :: rest)) (s2 :: rest) c))
            props) (s :: (s2 :: rest ++ q)) v = _
        rw [hg]
        simp [updateAt, elemsGet_setElem_self, childFor, setElem_setElem_self, ih, hg]
    | num n => exact absurd h (by simp [insertableB])
    | bool b => exact absurd h (by simp [insertableB])
    | null => exact absurd h (by simp [insertableB])
    | undef => exact absurd h (by simp [insertableB])
    | str s' => exact absurd h (by simp [insertableB])

/-- Writing past the absent slot of an insertable path builds a fresh
subtree there. -/
theorem updateAt_append_fresh : ∀ (p : List String) (t : JSValue),
    insertableB t p = true → goodPathB p = true →
    ∀ (k : String) (q : List String) (v : JSValue),
    updateAt t (p ++ k :: q) v = updateAt t p (updateAt (freshFor k) (k :: q) v)
  | [], t, h, _, _, _, _ => absurd h (by simp [insertableB])
  | [s], t, h, hp, k, q, v => by
    cases t with
    | obj fields =>
      simp only [insertableB, Bool.and_eq_true] at h
      obtain ⟨⟨hd, hpr⟩, hn⟩ := h
      rw [Option.isNone_iff_eq_none] at hn
      show updateAt (.obj fields) (s :: k :: q) v = _
      simp [updateAt, hn, childFor]
    | arr elems props =>
      simp only [insertableB, Bool.and_eq_true] at h
      obtain ⟨⟨hd, hlt⟩, hn⟩ := h
      rw [Option.isNone_iff_eq_none] at hn
      show updateAt (.arr elems props) (s :: k :: q) v = _
      simp [updateAt, hn, childFor]
    | num n => exact absurd h (by simp [insertableB])
    | bool b => exact absurd h (by simp [insertableB])
    | null => exact absurd h (by simp [insertableB])
    | undef => exact absurd h (by simp [insertableB])
    | str s' => exact absurd h (by simp [insertableB])
  | s :: s2 :: rest, t, h, hp, k, q, v => by
    have htail : goodPathB (s2 :: rest) = true := by
      rw [goodPathB_cons] at hp
      simp only [Bool.and_eq_true] at hp
      exact hp.2
    cases t with
    | obj fields =>
      simp only [insertableB, Bool.and_eq_true] at h
      obtain ⟨⟨hd, hpr⟩, hm⟩ := h
      cases hl : jsLookup fields s with
      | none =>
        have hfresh := insertableB_freshFor s2 rest htail
        have ih := updateAt_append_fresh (s2 :: rest) (freshFor s2) hfresh htail k q v
        rw [List.cons_append] at ih
        show updateAt (.obj fields) (s :: (s2 :: rest ++ k :: q)) v = _
        simp [updateAt, hl, childFor, ih]
      | some c' =>
        rw [hl] at hm
        have ih := updateAt_append_fresh (s2 :: rest) c' hm htail k q v
        rw [List.cons_append] at ih
        show updateAt (.obj fields) (s :: (s2 :: rest ++ k :: q)) v = _
        simp [updateAt, hl, childFor, ih]
    | arr elems props =>
      simp only [insertableB, Bool.and_eq_true] at h
      obtain ⟨hcan, hm⟩ := h
      cases hg : elemsGet elems (strToNat s) with
      | none =>
        have hfresh := insertableB_freshFor s2 rest htail
        have ih := updateAt_append_fresh (s2 :: rest) (freshFor s2) hfresh htail k q v
        rw [List.cons_append] at ih
        show updateAt (.arr elems props) (s :: (s2 :: rest ++ k :: q)) v = _
        simp [updateAt, hg, childFor, ih]
      | some c' =>
        rw [hg] at hm
        have ih := updateAt_append_fresh (s2 :: rest) c' hm htail k q v
        rw [List.cons_append] at ih
        show updateAt (.arr elems props) (s :: (s2 :: rest ++ k :: q)) v = _
        simp [updateAt, hg, childFor, ih]
    | num n => exact absurd h (by simp [insertableB])
    | bool b => exact absurd h (by simp [insertableB])
    | null => exact absurd h (by simp [insertableB])
    | undef => exact absurd h (by simp [insertableB])
    | str s' => exact absurd h (by simp [insertableB])

/-- Decoding a concatenation decodes the two halves in sequence. -/
theorem decodePairs_append : ∀ (l₁ l₂ : List (String × String)) (t : JSValue),
    decodePairs t (l₁ ++ l₂) =
      (match decodePairs t l₁ with
       | .ok t' => decodePairs t' l₂
       | .error e => .error e)
  | [], l₂, t => rfl
  | (k, v) :: rest, l₂, t => by
    show decodePairs t ((k, v) :: (rest ++ l₂)) = _
    rw [decodePairs, decodePairs]
    cases setPair t (parsePath k) v with
    | ok t' => exact decodePairs_append rest l₂ t'
    | error e => rfl

/-- A present key is reported by `hasKeyB`. -/
theorem hasKeyB_of_mem_fKeys : ∀ (f : JSFields) (k : String),
    k ∈ fKeys f → hasKeyB f k = true
  | .nil, k, h => absurd h (by simp [fKeys])
  | .cons k' v rest, k, h => by
    rw [fKeys] at h
    rcases List.mem_cons.mp h with rfl | hm
    · simp [hasKeyB]
    · simp [hasKeyB, hasKeyB_of_mem_fKeys rest k hm]

/-- Insertable paths are non-empty. -/
theorem ne_nil_of_insertableB (t : JSValue) (p : List String)
    (h : insertableB t p = true) : p ≠ [] := by
  intro he
  rw [he] at h
  exact absurd h (by simp [insertableB])

/-- Good paths have plain segments. -/
theorem segChars_of_goodPath (p : List String) (h : goodPathB p = true) :
    ∀ s ∈ p, SegChars s := fun s hs =>
  segChars_of_goodSeg s (by
    have := List.all_eq_true.mp h
    simpa using this s hs)

/-- Appending a good segment keeps the path good. -/
theorem goodPathB_append_single (p : List String) (k : String)
    (hp : goodPathB p = true) (hk : goodSegB k = true) :
    goodPathB (p ++ [k]) = true := by
  simp only [goodPathB, List.all_append, List.all_cons, List.all_nil, Bool.and_eq_true] at *
  exact ⟨hp, hk, trivial⟩

/-- Components of a good field key. -/
theorem goodKeyB_spec (k : String) (h : goodKeyB k = true) :
    isDigits k = false ∧ k ≠ "__proto__" ∧ goodSegB k = true := by
  refine ⟨?_, ?_, by simp [goodSegB, h]⟩
  · unfold goodKeyB at h
    simp only [Bool.and_eq_true] at h
    have := h.1.2
    simpa using this
  · intro he
    rw [he] at h
    unfold goodKeyB at h
    simp only [Bool.and_eq_true] at h
    exact absurd h.2 (by decide)

/-- Decoding a single pair addressed by a good insertable path performs the
declarative write of the inferred scalar. -/
theorem decode_single_leaf (t : JSValue) (p : List String) (w : String)
    (hins : insertableB t p = true) (hp : goodPathB p = true) :
    decodePairs t [(mkKey p, w)] = .ok (updateAt t p (convertValue w)) := by
  rw [decodePairs, parsePath_mkKey p (ne_nil_of_insertableB t p hins) (segChars_of_goodPath p hp)]
  rw [setPair_insert p t w hins hp]
  rfl

mutual
/-- A good value always contributes at least one pair. -/
theorem addToParams_ne_nil : ∀ (v : JSValue) (pfx : String),
    goodVal v = true → addToParams v pfx ≠ []
  | .num n, pfx, _ => by simp [addToParams]
  | .bool b, pfx, _ => by simp [addToParams]
  | .str s, pfx, _ => by simp [addToParams]
  | .null, _, h => absurd h (by simp [goodVal])
  | .undef, _, h => absurd h (by simp [goodVal])
  | .obj fields, pfx, h => by
    cases fields with
    | nil => exact absurd h (by simp [goodVal])
    | cons k v rest =>
      show encodeFields (.cons k v rest) pfx ≠ []
      exact encodeFields_cons_ne_nil k v rest pfx (by
        simp only [goodVal, goodFieldsB, Bool.and_eq_true] at h
        tauto)
  | .arr elems props, pfx, h => by
    cases elems with
    | nil => exact absurd h (by simp [goodVal])
    | consHole rest => exact absurd h (by simp [goodVal, goodElemsB])
    | consVal v rest =>
      show encodeElems (.consVal v rest) 0 pfx ≠ []
      exact encodeElems_cons_ne_nil v rest 0 pfx (by
        simp only [goodVal, goodElemsB, Bool.and_eq_true] at h
        tauto)

theorem encodeFields_cons_ne_nil : ∀ (k : String) (v : JSValue) (rest : JSFields)
    (pfx : String), goodVal v = true → encodeFields (.cons k v rest) pfx ≠ []
  | k, v, rest, pfx, hv => by
    show addToParams v _ ++ encodeFields rest pfx ≠ []
    intro he
    exact addToParams_ne_nil v _ hv (List.append_eq_nil.mp he).1

theorem encodeElems_cons_ne_nil : ∀ (v : JSValue) (rest : JSElems) (i : Nat)
    (pfx : String), goodVal v = true → encodeElems (.consVal v rest) i pfx ≠ []
  | v, rest, i, pfx, hv => by
    show addToParams v _ ++ encodeElems rest (i + 1) pfx ≠ []
    intro he
    exact addToParams_ne_nil v _ hv (List.append_eq_nil.mp he).1
end

mutual
/-- Decoding the pairs a good value contributes at a good insertable path
writes the value there. -/
theorem genVal : ∀ (v : JSValue), goodVal v = true →
    ∀ (t : JSValue) (p : List String), insertableB t p = true → goodPathB p = true →
    decodePairs t (addToParams v (mkKey p)) = .ok (updateAt t p v)
  | .num n, h, t, p, hins, hp => by
    show decodePairs t [(mkKey p, jsValueToString (.num n))] = _
    rw [decode_single_leaf t p _ hins hp, of_decide_eq_true h]
  | .bool b, h, t, p, hins, hp => by
    show decodePairs t [(mkKey p, jsValueToString (.bool b))] = _
    rw [decode_single_leaf t p _ hins hp, of_decide_eq_true h]
  | .str s, h, t, p, hins, hp => by
    show decodePairs t [(mkKey p, jsValueToString (.str s))] = _
    rw [decode_single_leaf t p _ hins hp, of_decide_eq_true h]
  | .null, h, _, _, _, _ => absurd h (by simp [goodVal])
  | .undef, h, _, _, _, _ => absurd h (by simp [goodVal])
  | .obj fields, h, t, p, hins, hp => by
    cases fields with
    | nil => exact absurd h (by simp [goodVal])
    | cons k1 v1 rest =>
      simp only [goodVal, goodFieldsB, Bool.and_eq_true] at h
      have hk1 : goodKeyB k1 = true := by tauto
      have hnk : hasKeyB rest k1 = false := by
        have : (!hasKeyB rest k1) = true := by tauto
        simpa using this
      have hv1 : goodVal v1 = true := by tauto
      have hrest : goodFieldsB rest = true := by tauto
      obtain ⟨hk1d, hk1p, hk1seg⟩ := goodKeyB_spec k1 hk1
      have hpne : p ≠ [] := ne_nil_of_insertableB t p hins
      have hkey : (if mkKey p = "" then k1 else mkKey p ++ "[" ++ k1 ++ "]") =
          mkKey (p ++ [k1]) := by
        rw [if_neg (mkKey_ne_empty p hpne (segChars_of_goodPath p hp))]
        rw [mkKey_append_single p k1 hpne]
      show decodePairs t (addToParams v1
          (if mkKey p = "" then k1 else mkKey p ++ "[" ++ k1 ++ "]") ++
          encodeFields rest (mkKey p)) = _
      rw [hkey, decodePairs_append]
      have hins1 : insertableB t (p ++ [k1]) = true :=
        insertableB_extend p t k1 [] hins hp
      have hp1 : goodPathB (p ++ [k1]) = true :=
        goodPathB_append_single p k1 hp hk1seg
      rw [genVal v1 hv1 t (p ++ [k1]) hins1 hp1]
      rw [updateAt_append_fresh p t hins hp k1 [] v1]
      have hfr : updateAt (freshFor k1) [k1] v1 = .obj (.cons k1 v1 .nil) := by
        rw [freshFor, if_neg (by simp [hk1d])]
        rfl
      rw [hfr]
      show decodePairs (updateAt t p (.obj (.cons k1 v1 .nil))) (encodeFields rest (mkKey p)) = _
      have hdisj : ∀ k ∈ fKeys rest, hasKeyB (JSFields.cons k1 v1 .nil) k = false := by
        intro k hk
        have hne : ¬k1 = k := by
          intro he
          rw [he] at hnk
          rw [hasKeyB_of_mem_fKeys rest k hk] at hnk
          exact absurd hnk (by simp)
        simp [hasKeyB, hne]
      rw [genFields rest hrest (.cons k1 v1 .nil) hdisj t p hins hp]
      rfl
  | .arr elems props, h, t, p, hins, hp => by
    cases props with
    | cons pk pv pr => exact absurd h (by simp [goodVal])
    | nil =>
      cases elems with
      | nil => exact absurd h (by simp [goodVal])
      | consHole rest => exact absurd h (by simp [goodVal, goodElemsB])
      | consVal v1 rest =>
        simp only [goodVal, goodElemsB, Bool.and_eq_true, decide_eq_true_eq] at h
        have hv1 : goodVal v1 = true := by tauto
        have hrest : goodElemsB rest = true := by tauto
        have hlen : elemsLength (JSElems.consVal v1 rest) ≤ 10000 := by tauto
        have hpne : p ≠ [] := ne_nil_of_insertableB t p hins
        have hcan0 : canonicalIndex? (natToDecimal 0) = some 0 :=
          canonicalIndex?_natToDecimal 0 (by norm_num)
        have hst0 : strToNat (natToDecimal 0) = 0 := strToNat_natToDecimal 0
        have hseg0 : goodSegB (natToDecimal 0) = true := by
          simp [goodSegB, hcan0, hst0]
        show decodePairs t (addToParams v1
            (mkKey p ++ "[" ++ natToDecimal 0 ++ "]") ++
            encodeElems rest 1 (mkKey p)) = _
        rw [← mkKey_append_single p (natToDecimal 0) hpne, decodePairs_append]
        have hins1 : insertableB t (p ++ [natToDecimal 0]) = true :=
          insertableB_extend p t (natToDecimal 0) [] hins hp
        have hp1 : goodPathB (p ++ [natToDecimal 0]) = true :=
          goodPathB_append_single p (natToDecimal 0) hp hseg0
        rw [genVal v1 hv1 t (p ++ [natToDecimal 0]) hins1 hp1]
        rw [updateAt_append_fresh p t hins hp (natToDecimal 0) [] v1]
        have hfr : updateAt (freshFor (natToDecimal 0)) [natToDecimal 0] v1 =
            .arr (.consVal v1 .nil) .nil := by
          rw [freshFor, if_pos (isDigits_natToDecimal 0)]
          show JSValue.arr (setElem .nil (strToNat (natToDecimal 0)) _) .nil = _
          rw [hst0]
          rfl
        rw [hfr]
        show decodePairs (updateAt t p (.arr (.consVal v1 .nil) .nil))
          (encodeElems rest 1 (mkKey p)) = _
        have hlen' : elemsLength (JSElems.consVal v1 .nil) + elemsLength rest ≤ 10000 := by
          simp only [elemsLength] at hlen ⊢
          omega
        have hgoal := genElems rest hrest (.consVal v1 .nil) hlen' t p hins hp
        rw [show elemsLength (JSElems.consVal v1 .nil) = 1 from rfl] at hgoal
        rw [hgoal]
        rfl

/-- Decoding the pairs of the remaining fields, with a partial object already
written at the path, appends those fields. -/
theorem genFields : ∀ (todo : JSFields), goodFieldsB todo = true →
    ∀ (done : JSFields), (∀ k ∈ fKeys todo, hasKeyB done k = false) →
    ∀ (t : JSValue) (p : List String), insertableB t p = true → goodPathB p = true →
    decodePairs (updateAt t p (.obj done)) (encodeFields todo (mkKey p)) =
      .ok (updateAt t p (.obj (fAppend done todo)))
  | .nil, _, done, _, t, p, _, _ => by
    simp [encodeFields, decodePairs, fAppend_nil]
  | .cons k v rest, hg, done, hdisj, t, p, hins, hp => by
    simp only [goodFieldsB, Bool.and_eq_true] at hg
    have hk : goodKeyB k = true := by tauto
    have hnk : hasKeyB rest k = false := by
      have : (!hasKeyB rest k) = true := by tauto
      simpa using this
    have hv : goodVal v = true := by tauto
    have hrest : goodFieldsB rest = true := by tauto
    obtain ⟨hkd, hkp, hkseg⟩ := goodKeyB_spec k hk
    have hpne : p ≠ [] := ne_nil_of_insertableB t p hins
    have hlk : jsLookup done k = none :=
      jsLookup_eq_none_of_hasKeyB_false done k (hdisj k (by simp [fKeys]))
    have hkey : (if mkKey p = "" then k else mkKey p ++ "[" ++ k ++ "]") =
        mkKey (p ++ [k]) := by
      rw [if_neg (mkKey_ne_empty p hpne (segChars_of_goodPath p hp))]
      rw [mkKey_append_single p k hpne]
    show decodePairs _ (addToParams v
        (if mkKey p = "" then k else mkKey p ++ "[" ++ k ++ "]") ++
        encodeFields rest (mkKey p)) = _
    rw [hkey, decodePairs_append]
    have hinsk : insertableB (.obj done) [k] = true := by
      simp [insertableB, hkd, hkp, hlk]
    have hins1 : insertableB (updateAt t p (.obj done)) (p ++ [k]) = true :=
      insertableB_updateAt p t hins hp (.obj done) [k] hinsk
    have hp1 : goodPathB (p ++ [k]) = true := goodPathB_append_single p k hp hkseg
    rw [genVal v hv (updateAt t p (.obj done)) (p ++ [k]) hins1 hp1]
    rw [updateAt_updateAt p t hins hp (.obj done) [k] v]
    rw [show updateAt (.obj done) [k] v = .obj (assocSet done k v) by simp [updateAt]]
    rw [assocSet_eq_fAppend done k v hlk]
    show (match Except.ok (updateAt t p (.obj (fAppend done (.cons k v .nil)))) with
      | Except.ok t' => decodePairs t' (encodeFields rest (mkKey p))
      | Except.error e => Except.error e) = _
    show decodePairs (updateAt t p (.obj (fAppend done (.cons k v .nil))))
      (encodeFields rest (mkKey p)) = _
    have hdisj' : ∀ k' ∈ fKeys rest,
        hasKeyB (fAppend done (.cons k v .nil)) k' = false := by
      intro k' hk'
      rw [hasKeyB_fAppend]
      have h1 : hasKeyB done k' = false := hdisj k' (by simp [fKeys, hk'])
      have h2 : ¬k = k' := by
        intro he
        rw [he] at hnk
        rw [hasKeyB_of_mem_fKeys rest k' hk'] at hnk
        exact absurd hnk (by simp)
      simp [h1, hasKeyB, h2]
    rw [genFields rest hrest (fAppend done (.cons k v .nil)) hdisj' t p hins hp]
    rw [fAppend_assoc]
    rfl

/-- Decoding the pairs of the remaining elements, with the array prefix
already written at the path, appends those elements. -/
theorem genElems : ∀ (todo : JSElems), goodElemsB todo = true →
    ∀ (done : JSElems), elemsLength done + elemsLength todo ≤ 10000 →
    ∀ (t : JSValue) (p : List String), insertableB t p = true → goodPathB p = true →
    decodePairs (updateAt t p (.arr done .nil))
        (encodeElems todo (elemsLength done) (mkKey p)) =
      .ok (updateAt t p (.arr (eAppend done todo) .nil))
  | .nil, _, done, _, t, p, _, _ => by
    simp [encodeElems, decodePairs, eAppend_nil]
  | .consHole rest, h, _, _, _, _, _, _ => absurd h (by simp [goodElemsB])
  | .consVal v rest, hg, done, hlen, t, p, hins, hp => by
    simp only [goodElemsB, Bool.and_eq_true] at hg
    have hv : goodVal v = true := hg.1
    have hrest : goodElemsB rest = true := hg.2
    have hpne : p ≠ [] := ne_nil_of_insertableB t p hins
    have hi10 : elemsLength done < 10000 := by
      simp only [elemsLength] at hlen
      omega
    have hcan : canonicalIndex? (natToDecimal (elemsLength done)) = some (elemsLength done) :=
      canonicalIndex?_natToDecimal (elemsLength done) (by omega)
    have hst : strToNat (natToDecimal (elemsLength done)) = elemsLength done :=
      strToNat_natToDecimal (elemsLength done)
    have hseg : goodSegB (natToDecimal (elemsLength done)) = true := by
      simp [goodSegB, hcan, hst, hi10]
    show decodePairs _ (addToParams v
        (mkKey p ++ "[" ++ natToDecimal (elemsLength done) ++ "]") ++
        encodeElems rest (elemsLength done + 1) (mkKey p)) = _
    rw [← mkKey_append_single p (natToDecimal (elemsLength done)) hpne, decodePairs_append]
    have hinsk : insertableB (.arr done .nil) [natToDecimal (elemsLength done)] = true := by
      simp [insertableB, isDigits_natToDecimal, hst, hi10, elemsGet_length]
    have hins1 : insertableB (updateAt t p (.arr done .nil))
        (p ++ [natToDecimal (elemsLength done)]) = true :=
      insertableB_updateAt p t hins hp (.arr done .nil) [natToDecimal (elemsLength done)] hinsk
    have hp1 : goodPathB (p ++ [natToDecimal (elemsLength done)]) = true :=
      goodPathB_append_single p (natToDecimal (elemsLength done)) hp hseg
    rw [genVal v hv (updateAt t p (.arr done .nil))
      (p ++ [natToDecimal (elemsLength done)]) hins1 hp1]
    rw [updateAt_updateAt p t hins hp (.arr done .nil) [natToDecimal (elemsLength done)] v]
    rw [show updateAt (.arr done .nil) [natToDecimal (elemsLength done)] v =
        .arr (setElem done (strToNat (natToDecimal (elemsLength done))) v) .nil by
      simp [updateAt]]
    rw [hst, setElem_length_append done v]
    show decodePairs (updateAt t p (.arr (eAppend done (.consVal v .nil)) .nil))
      (encodeElems rest (elemsLength done + 1) (mkKey p)) = _
    have hlen' : elemsLength (eAppend done (.consVal v .nil)) + elemsLength rest ≤ 10000 := by
      rw [elemsLength_eAppend]
      simp only [elemsLength] at hlen ⊢
      omega
    have hgoal := genElems rest hrest (eAppend done (.consVal v .nil)) hlen' t p hins hp
    rw [elemsLength_eAppend] at hgoal
    rw [show elemsLength (JSElems.consVal v .nil) = 1 from rfl] at hgoal
    rw [hgoal, eAppend_assoc]
    rfl
end

/-- Decoding the root-level pair groups of the remaining fields appends them
to the root object. -/
theorem rootFields : ∀ (todo done : JSFields), goodFieldsB todo = true →
    (∀ k ∈ fKeys todo, hasKeyB done k = false) →
    decodePairs (.obj done) (encodeFields todo "") = .ok (.obj (fAppend done todo))
  | .nil, done, _, _ => by simp [encodeFields, decodePairs, fAppend_nil]
  | .cons k v rest, done, hg, hdisj => by
    simp only [goodFieldsB, Bool.and_eq_true] at hg
    have hk : goodKeyB k = true := by tauto
    have hnk : hasKeyB rest k = false := by
      have : (!hasKeyB rest k) = true := by tauto
      simpa using this
    have hv : goodVal v = true := by tauto
    have hrest : goodFieldsB rest = true := by tauto
    obtain ⟨hkd, hkp, hkseg⟩ := goodKeyB_spec k hk
    have hlk : jsLookup done k = none :=
      jsLookup_eq_none_of_hasKeyB_false done k (hdisj k (by simp [fKeys]))
    have hinsk : insertableB (.obj done) [k] = true := by
      simp [insertableB, hkd, hkp, hlk]
    have hpk : goodPathB [k] = true := by simp [goodPathB, hkseg]
    have hgen := genVal v hv (.obj done) [k] hinsk hpk
    rw [mkKey_singleton k] at hgen
    show decodePairs (.obj done) (addToParams v k ++ encodeFields rest "") = _
    rw [decodePairs_append, hgen]
    show decodePairs (updateAt (.obj done) [k] v) (encodeFields rest "") = _
    rw [show updateAt (.obj done) [k] v = .obj (assocSet done k v) by simp [updateAt]]
    rw [assocSet_eq_fAppend done k v hlk]
    have hdisj' : ∀ k' ∈ fKeys rest,
        hasKeyB (fAppend done (.cons k v .nil)) k' = false := by
      intro k' hk'
      rw [hasKeyB_fAppend]
      have h1 : hasKeyB done k' = false := hdisj k' (by simp [fKeys, hk'])
      have h2 : ¬k = k' := by
        intro he
        rw [he] at hnk
        rw [hasKeyB_of_mem_fKeys rest k' hk'] at hnk
        exact absurd hnk (by simp)
      simp [h1, hasKeyB, h2]
    rw [rootFields rest (fAppend done (.cons k v .nil)) hrest hdisj']
    rw [fAppend_assoc]
    rfl

/-- C5 amended, main theorem: encoding a good tree and decoding the pairs
back rebuilds the tree exactly. -/
theorem c5_amended (fields : JSFields) (h : goodRootB fields = true) :
    paramsObject (addToParams (.obj fields) "") = .ok (.obj fields) := by
  cases fields with
  | nil => rfl
  | cons k v rest =>
    have hv : goodVal v = true := by
      unfold goodRootB goodFieldsB at h
      simp only [Bool.and_eq_true] at h
      tauto
    have hne : encodeFields (.cons k v rest) "" ≠ [] :=
      encodeFields_cons_ne_nil k v rest "" hv
    show paramsObject (encodeFields (.cons k v rest) "") = _
    unfold paramsObject
    rw [if_neg (by simpa [List.isEmpty_iff] using hne)]
    have := rootFields (.cons k v rest) .nil h (fun k _ => rfl)
    rw [this]
    rfl

/-- C5 counterexample: the tree with the single string leaf `"true"` is
within the claim's stated bounds, yet decoding its encoding yields the
boolean `true` — the inferencer cannot tell a keyword-looking string from a
keyword, so the round trip fails as claimed. -/
theorem c5_counterexample :
    paramsObject (addToParams (.obj (.cons "a" (.str "true") .nil)) "") =
      .ok (.obj (.cons "a" (.bool true) .nil)) ∧
    JSValue.obj (.cons "a" (.bool true) .nil) ≠ .obj (.cons "a" (.str "true") .nil) :=
  ⟨by rfl, by decide⟩

/-- C5 amended, witness: a concrete good tree with a number, strings, a
nested object and an array round-trips exactly. -/
theorem c5_amended_witness :
    goodRootB c5Tree = true ∧
    paramsObject (addToParams (.obj c5Tree) "") = .ok (.obj c5Tree) :=
  ⟨by decide, c5_amended c5Tree (by decide)⟩

end ReactUtils
